import Mathlib

/-!
Homework13: evaluation of a linear digit classifier.

Shallow embedding of `src/main.cpp`: the model loader `loadWeights`, the CSV
row parser `parseCsvLine`, the predictor `predictClass` and the driver `main`.

Conventions of the embedding.

* A `double` is represented by the rational number it denotes (infinities and
  NaN are not represented).  Every floating-point operation of the source is
  an exact rational operation followed by a rounding `fl : ℚ → ℚ`, which is a
  parameter of the embedding.  `exact` (no rounding) gives exact arithmetic;
  `binary64` is IEEE 754 round-to-nearest-even with a 53 bit significand.
* A C string is the list of characters starting at the pointer; the
  terminating NUL is the end of the list, `peek` reads `*ptr`.
* `long` is 64 bits wide and `int` 32 bits wide (LP64).
* Reads through `operator[]` and raw pointers are `Option`-valued: `none`
  stands for an out-of-range access.
-/

namespace Homework13

/-! ## Constants (main.cpp, lines 15-17) -/

def kNumClasses : Nat := 10
def kNumPixels : Nat := 784
def kModelRowSize : Nat := kNumPixels + 1

/-! ## Floating-point arithmetic -/

/-- Rounding applied after each floating-point operation. -/
abbrev Rounding := ℚ → ℚ

/-- Exact arithmetic: no rounding at all. -/
def exact : Rounding := fun q => q

/-- Nearest integer, ties to the even neighbour. -/
def roundHalfEven (q : ℚ) : ℤ :=
  let f := ⌊q⌋
  let r := q - f
  if r < 1 / 2 then f
  else if 1 / 2 < r then f + 1
  else if f % 2 = 0 then f else f + 1

/-- The binade of a nonzero rational: the `e` with `2 ^ e ≤ |q| < 2 ^ (e + 1)`. -/
def binade (q : ℚ) : ℤ := Int.log 2 |q|

/-- IEEE 754 binary64 rounding of a rational (round to nearest, ties to even,
53 significant bits).  The exponent range is not bounded: the nonzero values
that `parseCsvLine` rounds have magnitude between `2 ^ (-9)` and `2 ^ 63`, far
from overflow and from the subnormal range. -/
def binary64 : Rounding := fun q =>
  if q = 0 then 0
  else
    let u : ℚ := (2 : ℚ) ^ (binade q - 52)
    (roundHalfEven (q / u) : ℚ) * u

/-- The constant `inv255 = 1.0 / 255.0` (main.cpp, line 78). -/
def inv255 (fl : Rounding) : ℚ := fl (1 / 255)

/-! ## loadWeights (main.cpp, lines 19-38) -/

/-- Errors raised by `loadWeights`. -/
inductive LoadError
  | openFailed
  | coefficientCount
  deriving DecidableEq, Repr

/-- The loop `while (input >> value) weights.push_back(value)`: the file is its
sequence of whitespace-separated tokens, `some v` a token that extracts as the
number `v`, `none` a token that does not.  Extraction stops at the end of the
file or at the first token that fails. -/
def readValues : List (Option ℚ) → List ℚ → List ℚ
  | [], weights => weights
  | none :: _, weights => weights
  | some value :: rest, weights => readValues rest (weights ++ [value])

/-- The model loader; `none` is a file that cannot be opened. -/
def loadWeights (file : Option (List (Option ℚ))) : Except LoadError (List ℚ) :=
  match file with
  | none => .error .openFailed
  | some tokens =>
    let weights := readValues tokens []
    if weights.length ≠ kNumClasses * kModelRowSize then .error .coefficientCount
    else .ok weights

/-! ## predictClass (main.cpp, lines 40-60) -/

/-- The comparison `score > bestScore`, where `none` is the initial `-∞`. -/
def gtBest (score : ℚ) : Option ℚ → Bool
  | none => true
  | some best => decide (best < score)

/-- The inner loop `for (i = 0; i < kNumPixels; ++i) score += row[i + 1] * features[i]`;
`row` is the offset of the row pointer into `weights`, the first argument the
number of iterations left. -/
def scoreLoop (fl : Rounding) (weights features : List ℚ) (row : Nat) :
    Nat → Nat → ℚ → Option ℚ
  | 0, _, score => some score
  | n + 1, i, score =>
    match weights[row + (i + 1)]?, features[i]? with
    | some w, some x => scoreLoop fl weights features row n (i + 1) (fl (score + fl (w * x)))
    | _, _ => none

/-- The outer loop over the classes. -/
def classLoop (fl : Rounding) (weights features : List ℚ) :
    Nat → Nat → Nat → Option ℚ → Int → Option Int
  | 0, _, _, _, bestClass => some bestClass
  | n + 1, cls, row, bestScore, bestClass =>
    match weights[row]? with
    | none => none
    | some bias =>
      match scoreLoop fl weights features row kNumPixels 0 bias with
      | none => none
      | some score =>
        if gtBest score bestScore then
          classLoop fl weights features n (cls + 1) (row + kModelRowSize) (some score) (cls : Int)
        else
          classLoop fl weights features n (cls + 1) (row + kModelRowSize) bestScore bestClass

def predictClass (fl : Rounding) (weights features : List ℚ) : Option Int :=
  classLoop fl weights features kNumClasses 0 0 none 0

/-- The score of class `c` as the specification writes it: the bias plus the
sum of the pixel contributions. -/
def score (weights features : List ℚ) (c : Nat) : ℚ :=
  weights.getD (785 * c) 0 +
    ∑ i in Finset.range 784, weights.getD (785 * c + 1 + i) 0 * features.getD i 0

/-! ## strtol, as used by parseCsvLine -/

/-- The C `isspace` in the "C" locale: space, `\t`, `\n`, `\v`, `\f`, `\r`. -/
def isSpace (c : Char) : Bool :=
  c = ' ' || c = '\t' || c = '\n' || c = Char.ofNat 11 || c = Char.ofNat 12 || c = '\r'

/-- The value of a decimal digit character. -/
def digitVal (c : Char) : Nat := c.toNat - 48

/-- The number written by a run of decimal digits. -/
def digitsValue (ds : List Char) : Nat :=
  ds.foldl (fun acc c => 10 * acc + digitVal c) 0

def LONG_MAX : Int := 2 ^ 63 - 1
def LONG_MIN : Int := -(2 ^ 63)

/-- Out-of-range results of `strtol` are clamped to `LONG_MIN` / `LONG_MAX`. -/
def clampLong (v : Int) : Int :=
  if v < LONG_MIN then LONG_MIN else if LONG_MAX < v then LONG_MAX else v

/-- The length of the optional sign and whether it is a minus. -/
def scanSign : List Char → Bool × Nat
  | '-' :: _ => (true, 1)
  | '+' :: _ => (false, 1)
  | _ => (false, 0)

/-- The call `strtol(ptr, &endPtr, 10)`: skip white space, read an optional sign
and the longest run of decimal digits.  Returns the value and the number of
characters consumed, `endPtr - ptr`; with no digit nothing is consumed. -/
def strtol (s : List Char) : Int × Nat :=
  let ws := (s.takeWhile isSpace).length
  let s1 := s.drop ws
  let sign := scanSign s1
  let ds := (s1.drop sign.2).takeWhile Char.isDigit
  if ds.length = 0 then (0, 0)
  else
    let mag : Int := (digitsValue ds : Int)
    (clampLong (if sign.1 then -mag else mag), ws + sign.2 + ds.length)

/-- The character `*ptr`; the end of the list is the terminating NUL. -/
def peek (s : List Char) : Char := s.headD (Char.ofNat 0)

/-- The conversion `static_cast<int>(long)`: reduction modulo `2 ^ 32`. -/
def toInt32 (v : Int) : Int := (v + 2 ^ 31) % 2 ^ 32 - 2 ^ 31

/-! ## parseCsvLine (main.cpp, lines 62-99) -/

/-- What `parseCsvLine` leaves behind: its return value and the two
reference parameters. -/
structure ParseResult where
  ok : Bool
  label : Int
  features : List ℚ
  deriving DecidableEq, Repr

/-- The pixel loop of `parseCsvLine` (lines 79-96); the first argument is the
number of iterations left, `i` the loop counter.  Returns the success flag and
the buffer; `none` is a write outside the buffer. -/
def pixelLoop (fl : Rounding) : Nat → Nat → List Char → List ℚ → Option (Bool × List ℚ)
  | 0, _, _, features => some (true, features)
  | n + 1, i, ptr, features =>
    let scan := strtol ptr
    if scan.2 = 0 then some (false, features)
    else if i < features.length then
      let features1 := features.set i (fl (fl (scan.1 : ℚ) * inv255 fl))
      let ptr1 := ptr.drop scan.2
      if i + 1 < kNumPixels then
        if peek ptr1 ≠ ',' then some (false, features1)
        else pixelLoop fl n (i + 1) (ptr1.drop 1) features1
      else some (true, features1)
    else none

def parseCsvLine (fl : Rounding) (line : List Char) (features : List ℚ) :
    Option ParseResult :=
  let scan := strtol line
  let label := toInt32 scan.1
  if scan.2 = 0 then some ⟨false, label, features⟩
  else
    let ptr := line.drop scan.2
    if peek ptr = ',' then
      (pixelLoop fl kNumPixels 0 (ptr.drop 1) features).map fun r => ⟨r.1, label, r.2⟩
    else if peek ptr ≠ Char.ofNat 0 then some ⟨false, label, features⟩
    else (pixelLoop fl kNumPixels 0 ptr features).map fun r => ⟨r.1, label, r.2⟩

/-! ## main (main.cpp, lines 103-157) -/

/-- How a run of the program ends.  Every constructor but `accuracy` is exit
status 1 with a message on the error stream; `accuracy correct total` is exit
status 0 after printing the quotient `correct / total`. -/
inductive Exit
  | usage
  | loadFailed (e : LoadError)
  | testOpenFailed
  | malformed (sample : Nat)
  | noSamples
  | accuracy (correct total : Nat)
  deriving DecidableEq, Repr

def Exit.status : Exit → Nat
  | .accuracy _ _ => 0
  | _ => 1

/-- The accuracy a run reports, if it reports one: the value of
`static_cast<double>(correct) / static_cast<double>(total)` (main.cpp, line
154), which is then printed with three decimals. -/
def Exit.reported (fl : Rounding) : Exit → Option ℚ
  | .accuracy correct total => some (fl (fl (correct : ℚ) / fl (total : ℚ)))
  | _ => none

/-- The lines `std::getline` delivers for a stream: each line ends at a
newline, which is dropped; a last line without newline is delivered when it is
not empty.  `cur` holds the current line, reversed. -/
def getlinesAux : List Char → List Char → List (List Char)
  | cur, [] => if cur = [] then [] else [cur.reverse]
  | cur, c :: cs =>
    if c = '\n' then cur.reverse :: getlinesAux [] cs else getlinesAux (c :: cur) cs

def getlines (content : List Char) : List (List Char) := getlinesAux [] content

/-- The loop `while (std::getline(testFile, line))` of `main` with the final
check and the output; the state is the feature buffer and the two counters. -/
def evalLoop (fl : Rounding) (weights : List ℚ) :
    List (List Char) → List ℚ → Nat → Nat → Option Exit
  | [], _, total, correct =>
    if total = 0 then some .noSamples else some (.accuracy correct total)
  | line :: rest, features, total, correct =>
    if line = [] then evalLoop fl weights rest features total correct
    else
      match parseCsvLine fl line features with
      | none => none
      | some r =>
        if r.ok = false then some (.malformed (total + 1))
        else
          match predictClass fl weights r.features with
          | none => none
          | some predicted =>
            evalLoop fl weights rest r.features (total + 1)
              (if predicted = r.label then correct + 1 else correct)

/-- The program: `argc` is the argument count, `modelFile` and `testFile` the
contents of the two files (`none`: cannot be opened). -/
def main (fl : Rounding) (argc : Nat) (modelFile : Option (List (Option ℚ)))
    (testFile : Option (List Char)) : Option Exit :=
  if argc ≠ 3 then some .usage
  else
    match loadWeights modelFile with
    | .error e => some (.loadFailed e)
    | .ok weights =>
      match testFile with
      | none => some .testOpenFailed
      | some content =>
        evalLoop fl weights (getlines content) (List.replicate kNumPixels 0) 0 0


/-! ## Vocabulary of the specification -/

/-- An integer token of the CSV grammar: an optional sign followed by at least
one decimal digit. -/
def isIntToken (t : List Char) : Bool :=
  let ds := t.drop (scanSign t).2
  ds.length ≠ 0 && ds.all Char.isDigit

/-- The integer an integer token denotes. -/
def tokenValue (t : List Char) : Int :=
  let mag : Int := (digitsValue (t.drop (scanSign t).2) : Int)
  if (scanSign t).1 then -mag else mag

/-- Tokens joined by single commas. -/
def joinCsv : List (List Char) → List Char
  | [] => []
  | [t] => t
  | t :: ts => t ++ ',' :: joinCsv ts

/-- The character for a decimal digit. -/
def digitChar (d : Nat) : Char := Char.ofNat (48 + d)

/-- The decimal rendering of a natural number. -/
def natDecimal (n : Nat) : List Char :=
  if n = 0 then ['0'] else (Nat.digits 10 n).reverse.map digitChar

/-- The decimal rendering of an integer. -/
def decimal (v : Int) : List Char :=
  if v < 0 then '-' :: natDecimal v.natAbs else natDecimal v.natAbs

/-- The test row with label `label` and pixel values `pixels`. -/
def csvLine (label : Int) (pixels : List Int) : List Char :=
  joinCsv (decimal label :: pixels.map decimal)

/-- The feature value the parser stores for the pixel value `v`:
`static_cast<double>(value) * inv255` (main.cpp, line 85). -/
def normalize (fl : Rounding) (v : Int) : ℚ := fl (fl (v : ℚ) * inv255 fl)

/-- Where the parser stands after the `strtol` scan that starts at `ptr`. -/
def afterScan (ptr : List Char) : List Char := ptr.drop (strtol ptr).2

/-- Where the scan of the next pixel token starts: after the scanned token and
the separator that follows it. -/
def nextStart (ptr : List Char) : List Char := (afterScan ptr).drop 1

/-- Where the scan of pixel token 0 starts: after the label and its comma. -/
def firstPixel (line : List Char) : List Char :=
  if peek (afterScan line) = ',' then (afterScan line).drop 1 else afterScan line

/-- Where the scan of pixel token `i` starts. -/
def pixelStart (line : List Char) (i : Nat) : List Char := nextStart^[i] (firstPixel line)

/-- The malformed-line conditions of the specification: the label scan
consumes nothing; the character after the label is neither a comma nor the end
of the string; the scan of one of the 784 pixel tokens consumes nothing; the
character after one of the pixel tokens 0..782 is not a comma. -/
def Malformed (line : List Char) : Prop :=
  (strtol line).2 = 0 ∨
  (peek (afterScan line) ≠ ',' ∧ peek (afterScan line) ≠ Char.ofNat 0) ∨
  (∃ i, i < 784 ∧ (strtol (pixelStart line i)).2 = 0) ∨
  (∃ i, i < 783 ∧ peek (afterScan (pixelStart line i)) ≠ ',')

instance (line : List Char) : Decidable (Malformed line) := by
  unfold Malformed
  infer_instance

/-- The feature buffer as `main` creates it (main.cpp, line 126). -/
def freshBuffer : List ℚ := List.replicate kNumPixels 0

/-- Whether `parseCsvLine` accepts the line. -/
def accepts (fl : Rounding) (line : List Char) : Bool :=
  match parseCsvLine fl line freshBuffer with
  | some r => r.ok
  | none => false

/-- Whether the line is accepted and its parsed label equals the class
predicted from its parsed features. -/
def rowCorrect (fl : Rounding) (weights : List ℚ) (line : List Char) : Bool :=
  match parseCsvLine fl line freshBuffer with
  | some r => r.ok && decide (predictClass fl weights r.features = some r.label)
  | none => false

/-- The number of non-empty lines. -/
def sampleCount (lines : List (List Char)) : Nat :=
  lines.countP fun line => decide (line ≠ [])

/-- The number of non-empty lines that are predicted correctly. -/
def correctCount (fl : Rounding) (weights : List ℚ) (lines : List (List Char)) : Nat :=
  lines.countP fun line => decide (line ≠ []) && rowCorrect fl weights line

/-- An integer token preceded by any amount of white space. -/
def isPaddedToken (c : List Char) : Bool := isIntToken (c.dropWhile isSpace)

/-- The integer a padded token denotes. -/
def paddedValue (c : List Char) : Int := tokenValue (c.dropWhile isSpace)

/-- The score the code computes for class `c` (main.cpp, lines 46-49): start
from the bias, then add the pixel contributions in increasing index order,
rounding each product and each sum. -/
def computedScore (fl : Rounding) (weights features : List ℚ) (c : Nat) : ℚ :=
  (List.range 784).foldl
    (fun s i => fl (s + fl (weights.getD (785 * c + 1 + i) 0 * features.getD i 0)))
    (weights.getD (785 * c) 0)

/-- A model whose classes 0 and 1 both have bias `10 ^ 16`, class 1 has weight
1 for pixel 0, and every other coefficient is 0. -/
def roundingModel : List ℚ :=
  (List.range 7850).map fun k =>
    if k = 0 ∨ k = 785 then 10000000000000000 else if k = 786 then 1 else 0

/-- The feature vector of an image whose pixel 0 is 255 and whose other
pixels are 0. -/
def roundingFeatures : List ℚ :=
  (List.range 784).map fun i => if i = 0 then 1 else 0


/-! ## Theorems -/

/-! ### The model on small inputs -/

theorem strtol_samples :
    strtol [' ', '-', '1', '2', ','] = (-12, 4) ∧ strtol ['+', '7', 'x'] = (7, 2) ∧
    strtol ['-', ','] = (0, 0) ∧ strtol [] = (0, 0) ∧ strtol [',', '1'] = (0, 0) := by
  decide

theorem getlines_samples :
    getlines ['a', '\n', '\n', 'b'] = [['a'], [], ['b']] ∧
    getlines ['a', '\n'] = [['a']] ∧ getlines [] = [] ∧ getlines ['\n'] = [[]] := by
  decide

/-! ### loadWeights -/

theorem readValues_eq (tokens : List (Option ℚ)) (acc : List ℚ) :
    readValues tokens acc = acc ++ (tokens.takeWhile Option.isSome).filterMap id := by
  induction tokens generalizing acc with
  | nil => simp [readValues]
  | cons t rest ih =>
    cases t with
    | none => simp [readValues]
    | some v => simp [readValues, ih, List.takeWhile_cons]

theorem map_some_filterMap_id (l : List (Option ℚ)) (h : ∀ t ∈ l, t.isSome = true) :
    (l.filterMap id).map some = l ∧ (l.filterMap id).length = l.length := by
  induction l with
  | nil => simp
  | cons t rest ih =>
    have ht := h t (by simp)
    have hr := ih (fun x hx => h x (by simp [hx]))
    cases t with
    | none => simp at ht
    | some v => simp [hr.1, hr.2]

theorem leading_values (tokens : List (Option ℚ)) :
    ((tokens.takeWhile Option.isSome).filterMap id).map some
        = tokens.takeWhile Option.isSome ∧
    ((tokens.takeWhile Option.isSome).filterMap id).length
        = (tokens.takeWhile Option.isSome).length :=
  map_some_filterMap_id _ (fun _ ht => List.mem_takeWhile_imp ht)

/-- C5: `loadWeights` succeeds exactly when the numeric tokens read before the
end of the file or the first unparseable token are 7850 in number; it then
returns exactly those values, in file order, and with any other count it fails
with the coefficient-count error. -/
theorem loadWeights_iff_count (tokens : List (Option ℚ)) :
    ((∃ ws, loadWeights (some tokens) = .ok ws) ↔
        (tokens.takeWhile Option.isSome).length = 7850) ∧
    (∀ ws, loadWeights (some tokens) = .ok ws →
        ws.length = 7850 ∧ ws.map some = tokens.takeWhile Option.isSome) ∧
    ((tokens.takeWhile Option.isSome).length ≠ 7850 →
        loadWeights (some tokens) = .error .coefficientCount) := by
  have h := leading_values tokens
  simp only [loadWeights, readValues_eq, List.nil_append, kNumClasses, kModelRowSize,
    kNumPixels, h.2]
  refine ⟨?_, ?_, ?_⟩
  · constructor
    · rintro ⟨ws, hws⟩
      by_contra hne
      simp [hne] at hws
    · intro hlen
      exact ⟨(tokens.takeWhile Option.isSome).filterMap id, by simp [hlen]⟩
  · intro ws hws
    by_cases hlen : (tokens.takeWhile Option.isSome).length = 7850
    · simp [hlen] at hws
      subst hws
      exact ⟨by rw [h.2, hlen], h.1⟩
    · simp [hlen] at hws
  · intro hne
    simp [hne]

/-! ### predictClass -/

theorem getElem?_eq_some_getD (l : List ℚ) (i : Nat) (h : i < l.length) :
    l[i]? = some (l.getD i 0) := by
  simp [List.getD, List.getElem?_eq_getElem h]

/-- In exact arithmetic the inner loop adds the pixel contributions to the
score it starts from. -/
theorem scoreLoop_exact (w f : List ℚ) (row : Nat) :
    ∀ (n i : Nat) (s : ℚ), row + i + n < w.length → i + n ≤ f.length →
      scoreLoop exact w f row n i s
        = some (s + ∑ j in Finset.range n, w.getD (row + 1 + i + j) 0 * f.getD (i + j) 0) := by
  intro n
  induction n with
  | zero => intro i s _ _; simp [scoreLoop]
  | succ n ih =>
    intro i s hw hf
    have h1 : w[row + (i + 1)]? = some (w.getD (row + (i + 1)) 0) :=
      getElem?_eq_some_getD w _ (by omega)
    have h2 : f[i]? = some (f.getD i 0) := getElem?_eq_some_getD f _ (by omega)
    simp only [scoreLoop, h1, h2]
    rw [ih (i + 1) _ (by omega) (by omega), Finset.sum_range_succ']
    simp only [exact, Nat.add_zero]
    have e1 : ∀ j, row + 1 + (i + 1) + j = row + 1 + i + (j + 1) := fun j => by omega
    have e2 : ∀ j, i + 1 + j = i + (j + 1) := fun j => by omega
    simp only [e1, e2]
    have e3 : row + (i + 1) = row + 1 + i := by omega
    rw [e3]
    congr 1
    ring

/-- The class loop is an arg-max with first-index tie-break, for whatever
scores `sc` the inner loop computes. -/
theorem classLoop_argmax (fl : Rounding) (w f : List ℚ) (sc : Nat → ℚ)
    (hsc : ∀ c, c < 10 → ∃ bias, w[785 * c]? = some bias ∧
      scoreLoop fl w f (785 * c) kNumPixels 0 bias = some (sc c)) :
    ∀ (n cls : Nat) (best : Option ℚ) (bc : Int), cls + n = 10 →
      ((best = none ∧ cls = 0 ∧ bc = 0) ∨
        (∃ b : Nat, b < cls ∧ bc = (b : Int) ∧ best = some (sc b) ∧
          (∀ d, d < cls → sc d ≤ sc b) ∧ (∀ d, d < b → sc d < sc b))) →
      ∃ c : Nat, classLoop fl w f n cls (785 * cls) best bc = some (c : Int) ∧ c < 10 ∧
        (∀ d, d < 10 → sc d ≤ sc c) ∧ (∀ d, d < c → sc d < sc c) := by
  intro n
  induction n with
  | zero =>
    intro cls best bc hcls hinv
    rcases hinv with ⟨_, h0, _⟩ | ⟨b, hb, hbc, _, hmax, hfirst⟩
    · omega
    · have : cls = 10 := by omega
      subst this
      exact ⟨b, by simp [classLoop, hbc], hb, hmax, hfirst⟩
  | succ n ih =>
    intro cls best bc hcls hinv
    obtain ⟨bias, hbias, hscore⟩ := hsc cls (by omega)
    have hrow : 785 * cls + kModelRowSize = 785 * (cls + 1) := by
      simp [kModelRowSize, kNumPixels]; ring
    simp only [classLoop, hbias, hscore, hrow]
    rcases hinv with ⟨hnone, h0, _⟩ | ⟨b, hb, hbc, hbest, hmax, hfirst⟩
    · subst hnone
      subst h0
      simp only [gtBest, if_true]
      apply ih 1 _ _ (by omega)
      right
      refine ⟨0, by omega, by simp, rfl, ?_, ?_⟩
      · intro d hd
        have : d = 0 := by omega
        subst this
        exact le_refl _
      · intro d hd
        omega
    · subst hbest
      by_cases hgt : sc b < sc cls
      · simp only [gtBest, hgt, decide_True, if_true]
        apply ih (cls + 1) _ _ (by omega)
        right
        refine ⟨cls, by omega, rfl, rfl, ?_, ?_⟩
        · intro d hd
          rcases Nat.lt_succ_iff_lt_or_eq.mp hd with h | h
          · exact le_of_lt (lt_of_le_of_lt (hmax d h) hgt)
          · subst h
            exact le_refl _
        · intro d hd
          exact lt_of_le_of_lt (hmax d hd) hgt
      · simp only [gtBest, hgt, decide_False, Bool.false_eq_true, if_false]
        apply ih (cls + 1) _ _ (by omega)
        right
        refine ⟨b, by omega, hbc, rfl, ?_, hfirst⟩
        intro d hd
        rcases Nat.lt_succ_iff_lt_or_eq.mp hd with h | h
        · exact hmax d h
        · subst h
          exact not_lt.mp hgt

/-- With buffers of the right size every class has its specified score. -/
theorem row_score_exact (w f : List ℚ) (hw : w.length = 7850) (hf : f.length = 784)
    (c : Nat) (hc : c < 10) :
    ∃ bias, w[785 * c]? = some bias ∧
      scoreLoop exact w f (785 * c) kNumPixels 0 bias = some (score w f c) := by
  refine ⟨w.getD (785 * c) 0, getElem?_eq_some_getD w _ (by omega), ?_⟩
  rw [scoreLoop_exact w f (785 * c) kNumPixels 0 _ (by simp [kNumPixels]; omega)
    (by simp [kNumPixels]; omega)]
  simp [score, kNumPixels]

/-! ### strtol on integer tokens -/

theorem not_isSpace_of_isDigit (c : Char) (h : c.isDigit = true) : isSpace c = false := by
  by_contra hs
  simp only [isSpace, Bool.not_eq_false, Bool.or_eq_true, decide_eq_true_eq] at hs
  rcases hs with ((((h1 | h1) | h1) | h1) | h1) | h1 <;> subst h1 <;> revert h <;> decide

theorem scanSign_of_isDigit (c : Char) (rest : List Char) (h : c.isDigit = true) :
    scanSign (c :: rest) = (false, 0) := by
  unfold scanSign
  split
  · rename_i heq
    simp only [List.cons.injEq] at heq
    obtain ⟨h1, _⟩ := heq
    subst h1
    revert h
    decide
  · rename_i heq
    simp only [List.cons.injEq] at heq
    obtain ⟨h1, _⟩ := heq
    subst h1
    revert h
    decide
  · rfl

theorem scanSign_of_ne (c : Char) (rest : List Char) (h1 : c ≠ '-') (h2 : c ≠ '+') :
    scanSign (c :: rest) = (false, 0) := by
  unfold scanSign
  split
  · rename_i heq
    simp only [List.cons.injEq] at heq
    exact absurd heq.1 h1
  · rename_i heq
    simp only [List.cons.injEq] at heq
    exact absurd heq.1 h2
  · rfl

theorem takeWhile_digits_append (ds rest : List Char) (hds : ds.all Char.isDigit = true)
    (hrest : (peek rest).isDigit = false) :
    (ds ++ rest).takeWhile Char.isDigit = ds := by
  induction ds with
  | nil =>
    cases rest with
    | nil => rfl
    | cons c cs =>
      simp only [peek, List.headD_cons] at hrest
      simp [List.takeWhile_cons, hrest]
  | cons d ds ih =>
    simp only [List.all_cons, Bool.and_eq_true] at hds
    simp [List.takeWhile_cons, hds.1, ih hds.2]

theorem strtol_of_scan (s ds : List Char) (ws : Nat) (sign : Bool × Nat)
    (h1 : (s.takeWhile isSpace).length = ws) (h2 : scanSign (s.drop ws) = sign)
    (h3 : ((s.drop ws).drop sign.2).takeWhile Char.isDigit = ds) :
    strtol s = if ds.length = 0 then (0, 0)
      else (clampLong (if sign.1 then -(digitsValue ds : Int) else (digitsValue ds : Int)),
        ws + sign.2 + ds.length) := by
  subst h1 h2 h3
  rfl

/-- An integer token followed by something that does not start with a digit
is scanned whole, and `strtol` returns its value (clamped to `long`). -/
theorem strtol_token (t rest : List Char) (ht : isIntToken t = true)
    (hrest : (peek rest).isDigit = false) :
    strtol (t ++ rest) = (clampLong (tokenValue t), t.length) := by
  cases t with
  | nil => simp [isIntToken, scanSign] at ht
  | cons c cs =>
    by_cases hm : c = '-'
    · subst hm
      have hs : ∀ l, scanSign ('-' :: l) = (true, 1) := fun l => rfl
      simp only [isIntToken, hs, List.drop_succ_cons, List.drop_zero, Bool.and_eq_true,
        decide_eq_true_eq] at ht
      have htw := takeWhile_digits_append cs rest ht.2 hrest
      rw [strtol_of_scan ('-' :: cs ++ rest) cs 0 (true, 1) (by simp [List.takeWhile_cons, isSpace])
        (by simp [hs]) (by simpa using htw)]
      simp [ht.1, tokenValue, hs, Nat.add_comm]
    · by_cases hp : c = '+'
      · subst hp
        have hs : ∀ l, scanSign ('+' :: l) = (false, 1) := fun l => rfl
        simp only [isIntToken, hs, List.drop_succ_cons, List.drop_zero, Bool.and_eq_true,
          decide_eq_true_eq] at ht
        have htw := takeWhile_digits_append cs rest ht.2 hrest
        rw [strtol_of_scan ('+' :: cs ++ rest) cs 0 (false, 1)
          (by simp [List.takeWhile_cons, isSpace]) (by simp [hs]) (by simpa using htw)]
        simp [ht.1, tokenValue, hs, Nat.add_comm]
      · have hs : ∀ l, scanSign (c :: l) = (false, 0) := fun l => scanSign_of_ne c l hm hp
        simp only [isIntToken, hs, List.drop_zero, Bool.and_eq_true,
          decide_eq_true_eq] at ht
        have htw := takeWhile_digits_append (c :: cs) rest ht.2 hrest
        have hc : c.isDigit = true := by
          have := ht.2
          simp only [List.all_cons, Bool.and_eq_true] at this
          exact this.1
        have hsp := not_isSpace_of_isDigit c hc
        rw [strtol_of_scan (c :: cs ++ rest) (c :: cs) 0 (false, 0)
          (by simp [List.takeWhile_cons, hsp]) (by simp [hs]) (by simpa using htw)]
        simp [tokenValue, hs]

theorem isIntToken_length (t : List Char) (ht : isIntToken t = true) : t.length ≠ 0 := by
  intro h0
  have : t = [] := List.length_eq_zero.mp h0
  subst this
  simp [isIntToken, scanSign] at ht

theorem peek_nil_isDigit : (peek []).isDigit = false := by decide

theorem peek_comma_isDigit (l : List Char) : (peek (',' :: l)).isDigit = false := by
  simp only [peek, List.headD_cons]
  decide

theorem set_last (buf : List ℚ) (i : Nat) (x : ℚ) (h : i + 1 = buf.length) :
    buf.set i x = buf.take i ++ [x] := by
  rw [List.set_eq_take_append_cons_drop, if_pos (by omega), List.drop_of_length_le (by omega)]

theorem take_succ_set (buf : List ℚ) (i : Nat) (x : ℚ) (h : i < buf.length) :
    (buf.set i x).take (i + 1) = buf.take i ++ [x] := by
  rw [List.set_eq_take_append_cons_drop, if_pos h]
  have hlen : (buf.take i).length = i := by simp; omega
  rw [List.take_append_eq_append_take, hlen]
  simp [List.take_of_length_le (by omega : (buf.take i).length ≤ i + 1)]

/-! ### parseCsvLine on rows made of integer tokens -/

theorem pixelLoop_scan_zero (fl : Rounding) (n i : Nat) (ptr : List Char) (buf : List ℚ)
    (h : (strtol ptr).2 = 0) : pixelLoop fl (n + 1) i ptr buf = some (false, buf) := by
  simp [pixelLoop, h]

/-- The pixel loop on exactly as many tokens as it still expects, followed by
anything that does not start with a digit: it succeeds and stores the
normalized value of each token in its slot. -/
theorem pixelLoop_tokens (fl : Rounding) (s : List Char)
    (hs : (peek s).isDigit = false) :
    ∀ (n i : Nat) (ts : List (List Char)) (buf : List ℚ), ts.length = n → 1 ≤ n →
      i + n = 784 → buf.length = 784 → (∀ t ∈ ts, isIntToken t = true) →
      pixelLoop fl n i (joinCsv ts ++ s) buf
        = some (true, buf.take i ++ ts.map fun t => normalize fl (clampLong (tokenValue t))) := by
  intro n
  induction n with
  | zero => intro i ts buf _ h1; omega
  | succ n ih =>
    intro i ts buf hlen _ hin hbuf htok
    match ts, hlen, htok with
    | [t], hlen, htok =>
      have ht := htok t (by simp)
      have hn : n = 0 := by simpa using hlen
      subst hn
      have hscan := strtol_token t s ht hs
      have hpos := isIntToken_length t ht
      simp only [joinCsv, pixelLoop, hscan, hpos, if_false, hbuf, kNumPixels]
      rw [if_pos (by omega), if_neg (by omega)]
      simp [set_last buf i _ (by omega), normalize]
    | t :: t2 :: ts2, hlen, htok =>
      have ht := htok t (by simp)
      have hn : (t2 :: ts2).length = n := by simpa using hlen
      have hscan := strtol_token t (',' :: (joinCsv (t2 :: ts2) ++ s)) ht (peek_comma_isDigit _)
      have hpos := isIntToken_length t ht
      have hjoin : joinCsv (t :: t2 :: ts2) ++ s = t ++ ',' :: (joinCsv (t2 :: ts2) ++ s) := by
        simp [joinCsv]
      have hn1 : 1 ≤ n := by rw [← hn]; simp
      simp only [hjoin, pixelLoop, hscan, hpos, if_false, hbuf, kNumPixels]
      rw [if_pos (by omega), if_pos (by omega)]
      simp only [List.drop_left, peek, List.headD_cons, ne_eq, not_true_eq_false, if_false,
        List.drop_succ_cons, List.drop_zero]
      rw [ih (i + 1) (t2 :: ts2) _ hn hn1 (by omega) (by simp [hbuf])
        (fun x hx => htok x (by simp [List.mem_cons] at hx ⊢; tauto)),
        take_succ_set buf i _ (by omega)]
      simp [normalize]

/-- The pixel loop on fewer tokens than it still expects fails: after the last
token the mandatory comma is missing. -/
theorem pixelLoop_short (fl : Rounding) :
    ∀ (n i : Nat) (ts : List (List Char)) (buf : List ℚ), 1 ≤ ts.length → ts.length < n →
      i + n = 784 → buf.length = 784 → (∀ t ∈ ts, isIntToken t = true) →
      ∃ b, pixelLoop fl n i (joinCsv ts) buf = some (false, b) := by
  intro n
  induction n with
  | zero => intro i ts buf _ h1; omega
  | succ n ih =>
    intro i ts buf h1 hlen hin hbuf htok
    match ts, h1, hlen, htok with
    | [t], _, hlen, htok =>
      have ht := htok t (by simp)
      have hn : 1 ≤ n := by simpa using hlen
      have hscan := strtol_token t [] ht peek_nil_isDigit
      rw [List.append_nil] at hscan
      have hpos := isIntToken_length t ht
      simp only [joinCsv, pixelLoop, hscan, hpos, if_false, hbuf, kNumPixels]
      rw [if_pos (by omega), if_pos (by omega)]
      simp [peek]
    | t :: t2 :: ts2, _, hlen, htok =>
      have ht := htok t (by simp)
      have hn : (t2 :: ts2).length < n := by simpa using hlen
      have hscan := strtol_token t (',' :: joinCsv (t2 :: ts2)) ht (peek_comma_isDigit _)
      have hpos := isIntToken_length t ht
      have hjoin : joinCsv (t :: t2 :: ts2) = t ++ ',' :: joinCsv (t2 :: ts2) := by
        simp [joinCsv]
      simp only [hjoin, pixelLoop, hscan, hpos, if_false, hbuf, kNumPixels]
      rw [if_pos (by omega), if_pos (by omega)]
      simp only [List.drop_left, peek, List.headD_cons, ne_eq, not_true_eq_false, if_false,
        List.drop_succ_cons, List.drop_zero]
      exact ih (i + 1) (t2 :: ts2) _ (by simp) hn (by omega) (by simp [hbuf])
        (fun x hx => htok x (by simp [List.mem_cons] at hx ⊢; tauto))

/-- A row of a label token and 784 pixel tokens, followed by anything that
does not start with a digit, is accepted; the label is the value of the label
token and the slots hold the normalized values of the pixel tokens, in order. -/
theorem parseCsvLine_tokens (fl : Rounding) (tL : List Char) (ts : List (List Char))
    (s : List Char) (buf : List ℚ) (hL : isIntToken tL = true)
    (hts : ∀ t ∈ ts, isIntToken t = true) (hlen : ts.length = 784)
    (hbuf : buf.length = 784) (hs : (peek s).isDigit = false) :
    parseCsvLine fl (joinCsv (tL :: ts) ++ s) buf
      = some ⟨true, toInt32 (clampLong (tokenValue tL)),
          ts.map fun t => normalize fl (clampLong (tokenValue t))⟩ := by
  match ts, hlen, hts with
  | t :: ts2, hlen, hts =>
    have hjoin : joinCsv (tL :: t :: ts2) ++ s = tL ++ ',' :: (joinCsv (t :: ts2) ++ s) := by
      simp [joinCsv]
    have hscan := strtol_token tL (',' :: (joinCsv (t :: ts2) ++ s)) hL (peek_comma_isDigit _)
    have hpos := isIntToken_length tL hL
    have hloop := pixelLoop_tokens fl s hs 784 0 (t :: ts2) buf hlen (by omega) (by omega)
      hbuf hts
    simp only [hjoin, parseCsvLine, hscan, hpos, if_false, List.drop_left, peek,
      List.headD_cons, if_true, List.drop_succ_cons, List.drop_zero, kNumPixels]
    simp only [peek] at hloop
    rw [hloop]
    simp

/-- A row of a label token and fewer than 784 pixel tokens is rejected. -/
theorem parseCsvLine_short (fl : Rounding) (tL : List Char) (ts : List (List Char))
    (buf : List ℚ) (hL : isIntToken tL = true) (hts : ∀ t ∈ ts, isIntToken t = true)
    (hlen : ts.length < 784) (hbuf : buf.length = 784) :
    ∃ r, parseCsvLine fl (joinCsv (tL :: ts)) buf = some r ∧ r.ok = false := by
  match ts, hlen, hts with
  | [], _, _ =>
    have hscan := strtol_token tL [] hL peek_nil_isDigit
    rw [List.append_nil] at hscan
    have hpos := isIntToken_length tL hL
    have hnil : strtol [] = (0, 0) := by decide
    refine ⟨⟨false, toInt32 (clampLong (tokenValue tL)), buf⟩, ?_, rfl⟩
    have hloop : pixelLoop fl kNumPixels 0 [] buf = some (false, buf) :=
      pixelLoop_scan_zero fl 783 0 [] buf (by rw [hnil])
    simp only [joinCsv, parseCsvLine, hscan, hpos, if_false, List.drop_length, hloop]
    simp [peek]
  | t :: ts2, hlen, hts =>
    have hjoin : joinCsv (tL :: t :: ts2) = tL ++ ',' :: joinCsv (t :: ts2) := by
      simp [joinCsv]
    have hscan := strtol_token tL (',' :: joinCsv (t :: ts2)) hL (peek_comma_isDigit _)
    have hpos := isIntToken_length tL hL
    obtain ⟨b, hb⟩ := pixelLoop_short fl 784 0 (t :: ts2) buf (by simp) hlen (by omega)
      hbuf hts
    refine ⟨⟨false, toInt32 (clampLong (tokenValue tL)), b⟩, ?_, rfl⟩
    simp only [hjoin, parseCsvLine, hscan, hpos, if_false, List.drop_left, peek,
      List.headD_cons, if_true, List.drop_succ_cons, List.drop_zero, kNumPixels]
    rw [hb]
    simp

/-! ### Decimal renderings are integer tokens -/

theorem digitChar_spec (d : Nat) (h : d < 10) :
    (digitChar d).isDigit = true ∧ digitVal (digitChar d) = d := by
  interval_cases d <;> decide

theorem digitsValue_append (l : List Char) (c : Char) :
    digitsValue (l ++ [c]) = 10 * digitsValue l + digitVal c := by
  simp [digitsValue, List.foldl_append]

theorem digitsValue_render (L : List Nat) (h : ∀ d ∈ L, d < 10) :
    digitsValue (L.reverse.map digitChar) = Nat.ofDigits 10 L ∧
    (L.reverse.map digitChar).all Char.isDigit = true := by
  induction L with
  | nil => simp [digitsValue, Nat.ofDigits]
  | cons d L ih =>
    have hd := digitChar_spec d (h d (by simp))
    have hL := ih (fun x hx => h x (by simp [hx]))
    constructor
    · rw [List.reverse_cons, List.map_append, List.map_singleton, digitsValue_append, hL.1,
        hd.2, Nat.ofDigits_cons]
      omega
    · rw [List.reverse_cons, List.map_append, List.all_append, hL.2]
      simp [hd.1]

theorem natDecimal_spec (n : Nat) :
    (natDecimal n).length ≠ 0 ∧ (natDecimal n).all Char.isDigit = true ∧
    digitsValue (natDecimal n) = n := by
  by_cases h0 : n = 0
  · subst h0
    decide
  · have hr := digitsValue_render (Nat.digits 10 n) (fun d hd => Nat.digits_lt_base (by norm_num) hd)
    simp only [natDecimal, h0, if_false]
    refine ⟨?_, hr.2, ?_⟩
    · simp [Nat.digits_ne_nil_iff_ne_zero, h0]
    · rw [hr.1, Nat.ofDigits_digits]

theorem scanSign_natDecimal (n : Nat) :
    scanSign (natDecimal n) = (false, 0) := by
  obtain ⟨h1, h2, _⟩ := natDecimal_spec n
  match hn : natDecimal n with
  | [] => simp [hn] at h1
  | c :: cs =>
    rw [hn] at h2
    simp only [List.all_cons, Bool.and_eq_true] at h2
    exact scanSign_of_isDigit c cs h2.1

/-- The decimal rendering of an integer is an integer token denoting it. -/
theorem decimal_spec (v : Int) : isIntToken (decimal v) = true ∧ tokenValue (decimal v) = v := by
  obtain ⟨h1, h2, h3⟩ := natDecimal_spec v.natAbs
  have hs := scanSign_natDecimal v.natAbs
  by_cases hv : v < 0
  · have hsg : scanSign ('-' :: natDecimal v.natAbs) = (true, 1) := rfl
    simp only [decimal, hv, if_true, isIntToken, tokenValue, hsg, List.drop_succ_cons,
      List.drop_zero, h2, h3]
    refine ⟨by simpa using h1, ?_⟩
    omega
  · simp only [decimal, hv, if_false, isIntToken, tokenValue, hs, List.drop_zero, h2, h3]
    refine ⟨by simpa using h1, ?_⟩
    simp
    omega

/-! ### binary64 rounding -/

theorem roundHalfEven_intCast (m : ℤ) : roundHalfEven (m : ℚ) = m := by
  simp [roundHalfEven]

theorem roundHalfEven_of_lt (q : ℚ) (m : ℤ) (h1 : (m : ℚ) - 1 / 2 < q)
    (h2 : q < (m : ℚ) + 1 / 2) : roundHalfEven q = m := by
  by_cases hq : (m : ℚ) ≤ q
  · have hf : ⌊q⌋ = m := Int.floor_eq_iff.mpr ⟨hq, by linarith⟩
    have hr : q - (m : ℚ) < 1 / 2 := by linarith
    simp only [roundHalfEven, hf, hr, if_true]
  · have hq2 : q < (m : ℚ) := not_le.mp hq
    have hf : ⌊q⌋ = m - 1 := Int.floor_eq_iff.mpr ⟨by push_cast; linarith, by push_cast; linarith⟩
    have hr1 : ¬ (q - ((m - 1 : ℤ) : ℚ) < 1 / 2) := by push_cast; linarith
    have hr2 : 1 / 2 < q - ((m - 1 : ℤ) : ℚ) := by push_cast; linarith
    simp only [roundHalfEven, hf, hr1, hr2, if_true, if_false]
    omega

theorem roundHalfEven_tie_even (q : ℚ) (m : ℤ) (h : q = (m : ℚ) + 1 / 2) (hm : m % 2 = 0) :
    roundHalfEven q = m := by
  have hf : ⌊q⌋ = m := Int.floor_eq_iff.mpr ⟨by linarith, by linarith⟩
  have hr : q - (m : ℚ) = 1 / 2 := by linarith
  simp [roundHalfEven, hf, hr, hm]

theorem roundHalfEven_nonneg (q : ℚ) (h : 0 ≤ q) : 0 ≤ roundHalfEven q := by
  have hf : 0 ≤ ⌊q⌋ := Int.floor_nonneg.mpr h
  simp only [roundHalfEven]
  split_ifs <;> omega

theorem roundHalfEven_le (q : ℚ) (N : ℤ) (h : q ≤ (N : ℚ)) : roundHalfEven q ≤ N := by
  have hf : ⌊q⌋ ≤ N := by
    have := Int.floor_le q
    exact_mod_cast (le_trans this h)
  by_cases heq : ⌊q⌋ = N
  · have hr : q - (N : ℚ) < 1 / 2 := by linarith
    simp only [roundHalfEven, heq, hr, if_true]
    exact le_refl _
  · have hlt : ⌊q⌋ + 1 ≤ N := by omega
    simp only [roundHalfEven]
    split_ifs <;> omega

theorem binade_eq (q : ℚ) (e : ℤ) (h1 : (2 : ℚ) ^ e ≤ |q|) (h2 : |q| < (2 : ℚ) ^ (e + 1)) :
    binade q = e := by
  have hpos : (0 : ℚ) < |q| := lt_of_lt_of_le (zpow_pos (by norm_num) e) h1
  have ha : e ≤ Int.log 2 |q| :=
    (Int.zpow_le_iff_le_log (by norm_num) hpos).mp (by exact_mod_cast h1)
  have hb : Int.log 2 |q| < e + 1 :=
    (Int.lt_zpow_iff_log_lt (by norm_num) hpos).mp (by exact_mod_cast h2)
  simp only [binade]
  omega

theorem le_binade (q : ℚ) (k : ℤ) (h : (2 : ℚ) ^ k ≤ |q|) : k ≤ binade q := by
  have hpos : (0 : ℚ) < |q| := lt_of_lt_of_le (zpow_pos (by norm_num) k) h
  exact (Int.zpow_le_iff_le_log (by norm_num) hpos).mp (by exact_mod_cast h)

theorem binade_lt (q : ℚ) (hq : q ≠ 0) (k : ℤ) (h : |q| < (2 : ℚ) ^ k) : binade q < k := by
  have hpos : (0 : ℚ) < |q| := abs_pos.mpr hq
  exact (Int.lt_zpow_iff_log_lt (by norm_num) hpos).mp (by exact_mod_cast h)

theorem binade_spec (q : ℚ) (hq : q ≠ 0) :
    (2 : ℚ) ^ binade q ≤ |q| ∧ |q| < (2 : ℚ) ^ (binade q + 1) := by
  have hpos : (0 : ℚ) < |q| := abs_pos.mpr hq
  constructor
  · have := Int.zpow_log_le_self (b := 2) (by norm_num) hpos
    exact_mod_cast this
  · have := Int.lt_zpow_succ_log_self (b := 2) (by norm_num) |q|
    exact_mod_cast this

/-- Evaluation of `binary64` from the binade and the rounded significand. -/
theorem binary64_eval (q : ℚ) (e m : ℤ) (h1 : (2 : ℚ) ^ e ≤ |q|)
    (h2 : |q| < (2 : ℚ) ^ (e + 1)) (hm : roundHalfEven (q / (2 : ℚ) ^ (e - 52)) = m) :
    binary64 q = (m : ℚ) * (2 : ℚ) ^ (e - 52) := by
  have hq : q ≠ 0 := by
    intro h0
    rw [h0, abs_zero] at h1
    exact absurd h1 (not_le.mpr (zpow_pos (by norm_num) e))
  simp only [binary64, hq, if_false, binade_eq q e h1 h2, hm]

theorem binary64_zero : binary64 0 = 0 := by simp [binary64]

/-- Natural numbers below `2 ^ 53` are binary64 numbers. -/
theorem binary64_natCast (n : ℕ) (h : n < 2 ^ 53) : binary64 (n : ℚ) = n := by
  by_cases h0 : n = 0
  · subst h0
    simpa using binary64_zero
  have hq : (n : ℚ) ≠ 0 := by exact_mod_cast h0
  obtain ⟨hlo, hhi⟩ := binade_spec (n : ℚ) hq
  rw [abs_of_nonneg (by positivity : (0 : ℚ) ≤ n)] at hlo hhi
  set e := binade (n : ℚ) with he
  have he0 : 0 ≤ e := by
    apply le_binade
    rw [abs_of_nonneg (by positivity : (0 : ℚ) ≤ n), zpow_zero]
    exact_mod_cast Nat.one_le_iff_ne_zero.mpr h0
  have he52 : e ≤ 52 := by
    have h3 : e < 53 := by
      apply binade_lt _ hq
      rw [abs_of_nonneg (by positivity : (0 : ℚ) ≤ n)]
      have h53 : (n : ℚ) < ((2 ^ 53 : ℕ) : ℚ) := Nat.cast_lt.mpr h
      have hpow : ((2 ^ 53 : ℕ) : ℚ) = (2 : ℚ) ^ (53 : ℤ) := by norm_num
      rw [hpow] at h53
      exact h53
    omega
  obtain ⟨k, hk⟩ : ∃ k : ℕ, (k : ℤ) = 52 - e := ⟨(52 - e).toNat, by omega⟩
  have hu : (2 : ℚ) ^ (e - 52) = ((2 : ℚ) ^ k)⁻¹ := by
    have : e - 52 = -(k : ℤ) := by omega
    rw [this, zpow_neg, zpow_natCast]
  have hdiv : (n : ℚ) / (2 : ℚ) ^ (e - 52) = (((n * 2 ^ k : ℕ) : ℤ) : ℚ) := by
    rw [hu]
    push_cast
    field_simp
  have hround : roundHalfEven ((n : ℚ) / (2 : ℚ) ^ (e - 52)) = ((n * 2 ^ k : ℕ) : ℤ) := by
    rw [hdiv, roundHalfEven_intCast]
  simp only [binary64, hq, if_false, ← he, hround]
  rw [hu]
  push_cast
  field_simp

theorem binary64_nonneg (q : ℚ) (h : 0 ≤ q) : 0 ≤ binary64 q := by
  simp only [binary64]
  split_ifs
  · exact le_refl _
  · have hu : (0 : ℚ) < (2 : ℚ) ^ (binade q - 52) := zpow_pos (by norm_num) _
    have := roundHalfEven_nonneg (q / (2 : ℚ) ^ (binade q - 52)) (div_nonneg h hu.le)
    exact mul_nonneg (by exact_mod_cast this) hu.le

theorem binary64_le_one (q : ℚ) (h0 : 0 ≤ q) (h1 : q ≤ 1) : binary64 q ≤ 1 := by
  by_cases hq : q = 0
  · subst hq
    rw [binary64_zero]
    norm_num
  have hpos : (0 : ℚ) < |q| := abs_pos.mpr hq
  have he : binade q < 1 := by
    apply binade_lt _ hq
    rw [abs_of_nonneg h0, zpow_one]
    linarith
  obtain ⟨k, hk⟩ : ∃ k : ℕ, (k : ℤ) = 52 - binade q := ⟨(52 - binade q).toNat, by omega⟩
  have hu : (2 : ℚ) ^ (binade q - 52) = ((2 : ℚ) ^ k)⁻¹ := by
    have : binade q - 52 = -(k : ℤ) := by omega
    rw [this, zpow_neg, zpow_natCast]
  have hk0 : (0 : ℚ) < (2 : ℚ) ^ k := by positivity
  have hle : q / (2 : ℚ) ^ (binade q - 52) ≤ (((2 ^ k : ℕ) : ℤ) : ℚ) := by
    rw [hu]
    push_cast
    rw [div_inv_eq_mul]
    nlinarith
  have hr := roundHalfEven_le _ _ hle
  have hr2 : (roundHalfEven (q / (2 : ℚ) ^ (binade q - 52)) : ℚ) ≤ (2 : ℚ) ^ k := by
    exact_mod_cast hr
  simp only [binary64, hq, if_false]
  rw [hu] at hr2 ⊢
  calc (roundHalfEven (q / ((2 : ℚ) ^ k)⁻¹) : ℚ) * ((2 : ℚ) ^ k)⁻¹
      ≤ (2 : ℚ) ^ k * ((2 : ℚ) ^ k)⁻¹ := by
        apply mul_le_mul_of_nonneg_right hr2 (inv_nonneg.mpr hk0.le)
    _ = 1 := mul_inv_cancel₀ (ne_of_gt hk0)

/-- The double `1.0 / 255.0`. -/
theorem inv255_binary64 : inv255 binary64 = 4521260802379792 / 2 ^ 60 := by
  have h := binary64_eval (1 / 255) (-8) 4521260802379792 (by norm_num [abs_of_pos])
    (by norm_num [abs_of_pos])
    (roundHalfEven_of_lt _ _ (by norm_num) (by norm_num))
  rw [inv255, h]
  norm_num

/-- The double product `33 * inv255`: the exact product is a tie, rounded to even. -/
theorem normalize_binary64_33 : normalize binary64 33 = 4662550202454160 / 2 ^ 55 := by
  have h33 : binary64 ((33 : ℤ) : ℚ) = 33 := by
    have := binary64_natCast 33 (by norm_num)
    simpa using this
  have h := binary64_eval (33 * (4521260802379792 / 2 ^ 60)) (-3) 4662550202454160
    (by norm_num [abs_of_pos]) (by norm_num [abs_of_pos])
    (roundHalfEven_tie_even _ _ (by norm_num) (by norm_num))
  rw [normalize, h33, inv255_binary64, h]
  norm_num

/-- The double quotient `33 / 255.0`. -/
theorem binary64_33_div_255 : binary64 (33 / 255) = 4662550202454161 / 2 ^ 55 := by
  have h := binary64_eval (33 / 255) (-3) 4662550202454161
    (by norm_num [abs_of_pos]) (by norm_num [abs_of_pos])
    (roundHalfEven_of_lt _ _ (by norm_num) (by norm_num))
  rw [h]
  norm_num

/-- The double product `255 * inv255` is exactly one. -/
theorem normalize_binary64_255 : normalize binary64 255 = 1 := by
  have h255 : binary64 ((255 : ℤ) : ℚ) = 255 := by
    have := binary64_natCast 255 (by norm_num)
    simpa using this
  have h := binary64_eval (255 * (4521260802379792 / 2 ^ 60)) (-1) (2 ^ 53)
    (by norm_num [abs_of_pos]) (by norm_num [abs_of_pos])
    (roundHalfEven_of_lt _ _ (by norm_num) (by norm_num))
  rw [normalize, h255, inv255_binary64, h]
  norm_num

theorem normalize_binary64_zero : normalize binary64 0 = 0 := by
  simp [normalize, binary64_zero]

/-- Pixel values in `[0, 255]` are normalized into `[0, 1]`. -/
theorem normalize_binary64_range (v : Int) (h0 : 0 ≤ v) (h1 : v ≤ 255) :
    0 ≤ normalize binary64 v ∧ normalize binary64 v ≤ 1 := by
  obtain ⟨n, rfl⟩ := Int.eq_ofNat_of_zero_le h0
  have hn : n ≤ 255 := by exact_mod_cast h1
  have hv : binary64 (((n : ℤ) : ℚ)) = (n : ℚ) := by
    have := binary64_natCast n (by omega)
    simpa using this
  have hq : (n : ℚ) ≤ 255 := by exact_mod_cast hn
  have hq0 : (0 : ℚ) ≤ n := by positivity
  rw [normalize, hv, inv255_binary64]
  constructor
  · apply binary64_nonneg
    positivity
  · apply binary64_le_one
    · positivity
    · have : (n : ℚ) * (4521260802379792 / 2 ^ 60) ≤ 255 * (4521260802379792 / 2 ^ 60) :=
        mul_le_mul_of_nonneg_right hq (by norm_num)
      refine le_trans this ?_
      norm_num

theorem normalize_exact (v : Int) : normalize exact v = (v : ℚ) / 255 := by
  simp only [normalize, inv255, exact]
  ring

/-! ### parseCsvLine on arbitrary lines -/

/-- What the pixel loop does from any position: it never writes outside a
buffer of 784 slots, fails exactly when a scan consumes nothing or a mandatory
comma is missing, leaves the slots below `i` alone, and on success stores the
normalized value of each scanned token. -/
theorem pixelLoop_spec (fl : Rounding) :
    ∀ (n i : Nat) (ptr : List Char) (buf : List ℚ), i + n = 784 → buf.length = 784 →
      ∃ b feats, pixelLoop fl n i ptr buf = some (b, feats) ∧ feats.length = 784 ∧
        (b = false ↔
          (∃ j, j < n ∧ (strtol (nextStart^[j] ptr)).2 = 0) ∨
          (∃ j, j < n ∧ i + j < 783 ∧ peek (afterScan (nextStart^[j] ptr)) ≠ ',')) ∧
        (∀ k, k < i → feats[k]? = buf[k]?) ∧
        (b = true → ∀ j, j < n →
          feats[i + j]? = some (normalize fl (strtol (nextStart^[j] ptr)).1)) := by
  intro n
  induction n with
  | zero =>
    intro i ptr buf _ hbuf
    exact ⟨true, buf, rfl, hbuf, by simp, fun _ _ => rfl, fun _ j hj => absurd hj (by omega)⟩
  | succ n ih =>
    intro i ptr buf hin hbuf
    by_cases hz : (strtol ptr).2 = 0
    · refine ⟨false, buf, by simp [pixelLoop, hz], hbuf, ?_, fun _ _ => rfl, by simp⟩
      simp only [true_iff]
      exact Or.inl ⟨0, by omega, by simpa using hz⟩
    · have hi : i < buf.length := by omega
      have hset : (buf.set i (normalize fl (strtol ptr).1)).length = 784 := by simp [hbuf]
      have hkeep : ∀ k, k < i →
          (buf.set i (normalize fl (strtol ptr).1))[k]? = buf[k]? := by
        intro k hk
        rw [List.getElem?_set_ne (by omega)]
      by_cases hlast : i + 1 < 784
      · by_cases hc : peek (afterScan ptr) = ','
        · obtain ⟨b, feats, hrun, hlen, hfail, hlow, hval⟩ :=
            ih (i + 1) (nextStart ptr) (buf.set i (normalize fl (strtol ptr).1)) (by omega) hset
          refine ⟨b, feats, ?_, hlen, ?_, ?_, ?_⟩
          · simp only [pixelLoop, hz, if_false, hi, if_true, kNumPixels, hlast]
            simp only [afterScan] at hc
            simp only [hc, ne_eq, not_true_eq_false, if_false]
            simpa [normalize, nextStart, afterScan] using hrun
          · rw [hfail]
            constructor
            · rintro (⟨j, hj, h⟩ | ⟨j, hj, hj2, h⟩)
              · exact Or.inl ⟨j + 1, by omega, by simpa [Function.iterate_succ_apply] using h⟩
              · exact Or.inr ⟨j + 1, by omega, by omega,
                  by simpa [Function.iterate_succ_apply] using h⟩
            · rintro (⟨j, hj, h⟩ | ⟨j, hj, hj2, h⟩)
              · cases j with
                | zero => exact absurd (by simpa using h) hz
                | succ j =>
                  exact Or.inl ⟨j, by omega, by simpa [Function.iterate_succ_apply] using h⟩
              · cases j with
                | zero => exact absurd hc (by simpa using h)
                | succ j =>
                  exact Or.inr ⟨j, by omega, by omega,
                    by simpa [Function.iterate_succ_apply] using h⟩
          · intro k hk
            rw [hlow k (by omega), hkeep k hk]
          · intro hb j hj
            cases j with
            | zero =>
              rw [Nat.add_zero, hlow i (by omega), List.getElem?_set_eq_of_lt _ hi]
              simp
            | succ j =>
              have := hval hb j (by omega)
              rw [show i + (j + 1) = i + 1 + j by omega]
              simpa [Function.iterate_succ_apply] using this
        · refine ⟨false, buf.set i (normalize fl (strtol ptr).1), ?_, hset, ?_, hkeep, by simp⟩
          · simp only [pixelLoop, hz, if_false, hi, if_true, kNumPixels, hlast]
            simp only [afterScan] at hc
            simp [hc, normalize]
          · simp only [true_iff]
            exact Or.inr ⟨0, by omega, by omega, by simpa using hc⟩
      · have hn : n = 0 := by omega
        subst hn
        refine ⟨true, buf.set i (normalize fl (strtol ptr).1), ?_, hset, ?_, hkeep, ?_⟩
        · simp only [pixelLoop, hz, if_false, hi, if_true, kNumPixels, hlast]
          simp [normalize]
        · simp only [Bool.true_eq_false, false_iff, not_or, not_exists, not_and]
          constructor
          · intro j hj
            have : j = 0 := by omega
            subst this
            simpa using hz
          · intro j hj hj2
            omega
        · intro _ j hj
          have : j = 0 := by omega
          subst this
          rw [Nat.add_zero, List.getElem?_set_eq_of_lt _ hi]
          simp

theorem malformed_of_pixels (line : List Char) (h1 : (strtol line).2 ≠ 0)
    (h2 : ¬ (peek (afterScan line) ≠ ',' ∧ peek (afterScan line) ≠ Char.ofNat 0)) :
    Malformed line ↔
      (∃ j, j < 784 ∧ (strtol (nextStart^[j] (firstPixel line))).2 = 0) ∨
      (∃ j, j < 784 ∧ 0 + j < 783 ∧
        peek (afterScan (nextStart^[j] (firstPixel line))) ≠ ',') := by
  simp only [Malformed, h1, h2, false_or, pixelStart]
  constructor
  · rintro (h | ⟨j, hj, h⟩)
    · exact Or.inl h
    · exact Or.inr ⟨j, by omega, by omega, h⟩
  · rintro (h | ⟨j, _, hj, h⟩)
    · exact Or.inl h
    · exact Or.inr ⟨j, by omega, h⟩

/-- What `parseCsvLine` does on any line, given a buffer of 784 slots. -/
theorem parseCsvLine_spec (fl : Rounding) (line : List Char) (buf : List ℚ)
    (hbuf : buf.length = 784) :
    ∃ r, parseCsvLine fl line buf = some r ∧ r.label = toInt32 (strtol line).1 ∧
      r.features.length = 784 ∧ (r.ok = false ↔ Malformed line) ∧
      (r.ok = true → ∀ i, i < 784 →
        r.features[i]? = some (normalize fl (strtol (pixelStart line i)).1)) := by
  by_cases hz : (strtol line).2 = 0
  · refine ⟨⟨false, toInt32 (strtol line).1, buf⟩, by simp [parseCsvLine, hz], rfl, hbuf, ?_,
      by simp⟩
    simp only [true_iff]
    exact Or.inl hz
  · by_cases hc : peek (afterScan line) = ','
    · have hfp : firstPixel line = (line.drop (strtol line).2).drop 1 := by
        rw [firstPixel, if_pos hc]
        rfl
      obtain ⟨b, feats, hrun, hlen, hfail, _, hval⟩ :=
        pixelLoop_spec fl 784 0 (firstPixel line) buf (by omega) hbuf
      have hm := malformed_of_pixels line hz (by simp [hc])
      refine ⟨⟨b, toInt32 (strtol line).1, feats⟩, ?_, rfl, hlen, ?_, ?_⟩
      · simp only [afterScan] at hc
        rw [hfp] at hrun
        simp only [parseCsvLine, hz, if_false, hc, if_true, kNumPixels, hrun]
        rfl
      · exact hfail.trans hm.symm
      · intro hb i hi
        simpa [pixelStart] using hval hb i hi
    · by_cases hnul : peek (afterScan line) = Char.ofNat 0
      · have hfp : firstPixel line = line.drop (strtol line).2 := by
          rw [firstPixel, if_neg hc]
          rfl
        obtain ⟨b, feats, hrun, hlen, hfail, _, hval⟩ :=
          pixelLoop_spec fl 784 0 (firstPixel line) buf (by omega) hbuf
        have hm := malformed_of_pixels line hz (by simp [hnul])
        refine ⟨⟨b, toInt32 (strtol line).1, feats⟩, ?_, rfl, hlen, ?_, ?_⟩
        · simp only [afterScan] at hc hnul
          rw [hfp] at hrun
          simp only [parseCsvLine, hz, if_false, hc, hnul, ne_eq, not_true_eq_false,
            kNumPixels, hrun]
          rfl
        · exact hfail.trans hm.symm
        · intro hb i hi
          simpa [pixelStart] using hval hb i hi
      · refine ⟨⟨false, toInt32 (strtol line).1, buf⟩, ?_, rfl, hbuf, ?_, by simp⟩
        · simp only [afterScan] at hc hnul
          simp [parseCsvLine, hz, hc, hnul]
        · simp only [true_iff]
          exact Or.inr (Or.inl ⟨hc, hnul⟩)

theorem clampLong_of_range (p : Int) (h : LONG_MIN ≤ p ∧ p ≤ LONG_MAX) : clampLong p = p := by
  simp only [clampLong]
  rw [if_neg (by omega), if_neg (by omega)]

theorem toInt32_of_range (v : Int) (h : -(2 ^ 31) ≤ v ∧ v < 2 ^ 31) : toInt32 v = v := by
  simp only [toInt32]
  omega

theorem int_range_long (v : Int) (h : -(2 ^ 31) ≤ v ∧ v < 2 ^ 31) :
    LONG_MIN ≤ v ∧ v ≤ LONG_MAX := by
  simp only [LONG_MIN, LONG_MAX]
  omega

/-- The row rendered from a label and 784 pixel values is accepted, with that
label and the normalized pixel values in order. -/
theorem parseCsvLine_csvLine (fl : Rounding) (L : Int) (ps : List Int) (buf : List ℚ)
    (hL : -(2 ^ 31) ≤ L ∧ L < 2 ^ 31) (hps : ∀ p ∈ ps, LONG_MIN ≤ p ∧ p ≤ LONG_MAX)
    (hlen : ps.length = 784) (hbuf : buf.length = 784) :
    parseCsvLine fl (csvLine L ps) buf = some ⟨true, L, ps.map (normalize fl)⟩ := by
  have h := parseCsvLine_tokens fl (decimal L) (ps.map decimal) [] buf (decimal_spec L).1
    (by
      intro t ht
      obtain ⟨p, _, rfl⟩ := List.mem_map.mp ht
      exact (decimal_spec p).1)
    (by simpa using hlen) hbuf peek_nil_isDigit
  rw [List.append_nil] at h
  rw [csvLine, h, (decimal_spec L).2, clampLong_of_range L (int_range_long L hL),
    toInt32_of_range L hL, List.map_map]
  congr 2
  apply List.map_congr_left
  intro p hp
  simp only [Function.comp, (decimal_spec p).2, clampLong_of_range p (hps p hp)]

theorem getElem?_replicate_lt (n i : Nat) (x : ℚ) (h : i < n) :
    (List.replicate n x)[i]? = some x := by
  rw [List.getElem?_eq_getElem (by simpa using h)]
  simp

theorem mem_replicate_long (n : Nat) (v : Int) (hv : LONG_MIN ≤ v ∧ v ≤ LONG_MAX) :
    ∀ p ∈ List.replicate n v, LONG_MIN ≤ p ∧ p ≤ LONG_MAX := by
  intro p hp
  rw [List.eq_of_mem_replicate hp]
  exact hv

/-! ### The claims on parseCsvLine -/

/-- C2 (as amended): for a label within `int` range and 784 pixel values within
`long` range, the line of their decimal renderings joined by commas is
accepted, the label is returned, and slot `i` holds the product
`double(p_i) * inv255` of the `i`-th pixel value, in token order; in exact
arithmetic that product is `p_i / 255`. -/
theorem parseCsvLine_rendered_row (fl : Rounding) (L : Int) (ps : List Int) (buf : List ℚ)
    (hL : -(2 ^ 31) ≤ L ∧ L < 2 ^ 31) (hps : ∀ p ∈ ps, LONG_MIN ≤ p ∧ p ≤ LONG_MAX)
    (hlen : ps.length = 784) (hbuf : buf.length = 784) :
    parseCsvLine fl (csvLine L ps) buf
        = some ⟨true, L, ps.map fun (p : Int) => fl (fl (p : ℚ) * fl (1 / 255))⟩ ∧
    parseCsvLine exact (csvLine L ps) buf = some ⟨true, L, ps.map fun (p : Int) => (p : ℚ) / 255⟩ := by
  refine ⟨parseCsvLine_csvLine fl L ps buf hL hps hlen hbuf, ?_⟩
  rw [parseCsvLine_csvLine exact L ps buf hL hps hlen hbuf]
  congr 2
  apply List.map_congr_left
  intro p _
  exact normalize_exact p

theorem parseCsvLine_rendered_row_witness :
    (-(2 ^ 31) ≤ (7 : Int) ∧ (7 : Int) < 2 ^ 31) ∧
    (∀ p ∈ List.replicate 784 (255 : Int), LONG_MIN ≤ p ∧ p ≤ LONG_MAX) ∧
    (List.replicate 784 (255 : Int)).length = 784 ∧
    (List.replicate 784 (0 : ℚ)).length = 784 ∧
    parseCsvLine binary64 (csvLine 7 (List.replicate 784 255)) (List.replicate 784 0)
        = some ⟨true, 7, (List.replicate 784 (255 : Int)).map fun (p : Int) =>
            binary64 (binary64 (p : ℚ) * binary64 (1 / 255))⟩ ∧
    parseCsvLine exact (csvLine 7 (List.replicate 784 255)) (List.replicate 784 0)
        = some ⟨true, 7, (List.replicate 784 (255 : Int)).map fun (p : Int) => (p : ℚ) / 255⟩ :=
  ⟨by decide, mem_replicate_long _ _ (by decide), List.length_replicate _ _,
    List.length_replicate _ _,
    parseCsvLine_rendered_row binary64 7 (List.replicate 784 255) (List.replicate 784 0)
      (by decide) (mem_replicate_long _ _ (by decide)) (List.length_replicate _ _)
      (List.length_replicate _ _)⟩

/-- C2 (as stated) fails in binary64 arithmetic: on the row with label 7 and
784 pixels of value 33 the parser stores `33 * inv255`, which is neither the
rational `33 / 255` nor the double quotient `33 / 255.0`. -/
theorem parseCsvLine_quotient_counterexample :
    ∃ r, parseCsvLine binary64 (csvLine 7 (List.replicate 784 33)) (List.replicate 784 0)
        = some r ∧ r.ok = true ∧ r.label = 7 ∧
      r.features[0]? = some (4662550202454160 / 2 ^ 55) ∧
      (4662550202454160 / 2 ^ 55 : ℚ) ≠ 33 / 255 ∧
      (4662550202454160 / 2 ^ 55 : ℚ) ≠ binary64 (33 / 255) := by
  refine ⟨_, parseCsvLine_csvLine binary64 7 (List.replicate 784 33) (List.replicate 784 0)
    (by decide) (mem_replicate_long _ _ (by decide)) (List.length_replicate _ _)
    (List.length_replicate _ _), rfl, rfl, ?_, by norm_num, ?_⟩
  · rw [List.map_replicate, normalize_binary64_33]
    exact getElem?_replicate_lt 784 0 _ (by norm_num)
  · rw [binary64_33_div_255]
    norm_num

/-- C3: given its buffer of 784 slots, `parseCsvLine` always returns, and it
signals failure exactly when the label scan consumes nothing, or the character
after the label is neither a comma nor the end of the string, or the scan of one
of the 784 pixel tokens consumes nothing, or the character after one of the
pixel tokens 0..782 is not a comma; in every other case it succeeds. -/
theorem parseCsvLine_fails_iff_malformed (fl : Rounding) (line : List Char) (buf : List ℚ)
    (hbuf : buf.length = 784) :
    ∃ r, parseCsvLine fl line buf = some r ∧
      (r.ok = false ↔
        ((strtol line).2 = 0 ∨
         (peek (afterScan line) ≠ ',' ∧ peek (afterScan line) ≠ Char.ofNat 0) ∨
         (∃ i, i < 784 ∧ (strtol (pixelStart line i)).2 = 0) ∨
         (∃ i, i < 783 ∧ peek (afterScan (pixelStart line i)) ≠ ','))) ∧
      (r.ok = true ↔ ¬ Malformed line) := by
  obtain ⟨r, hr, _, _, hfail, _⟩ := parseCsvLine_spec fl line buf hbuf
  refine ⟨r, hr, hfail, ?_⟩
  rw [← hfail]
  cases r.ok <;> simp

theorem parseCsvLine_fails_iff_malformed_witness :
    (List.replicate 784 (0 : ℚ)).length = 784 ∧
    ∃ r, parseCsvLine binary64 ['7', ';'] (List.replicate 784 0) = some r ∧
      (r.ok = false ↔
        ((strtol ['7', ';']).2 = 0 ∨
         (peek (afterScan ['7', ';']) ≠ ',' ∧ peek (afterScan ['7', ';']) ≠ Char.ofNat 0) ∨
         (∃ i, i < 784 ∧ (strtol (pixelStart ['7', ';'] i)).2 = 0) ∨
         (∃ i, i < 783 ∧ peek (afterScan (pixelStart ['7', ';'] i)) ≠ ','))) ∧
      (r.ok = true ↔ ¬ Malformed ['7', ';']) :=
  ⟨List.length_replicate _ _,
    parseCsvLine_fails_iff_malformed binary64 ['7', ';'] (List.replicate 784 0)
      (List.length_replicate _ _)⟩

/-- C4: a line that consists of an integer label followed by fewer than 784
comma-separated integer pixel tokens and nothing else (the label alone
included) is rejected as malformed. -/
theorem parseCsvLine_rejects_short_row (fl : Rounding) (tL : List Char)
    (ts : List (List Char)) (buf : List ℚ) (hL : isIntToken tL = true)
    (hts : ∀ t ∈ ts, isIntToken t = true) (hlen : ts.length < 784)
    (hbuf : buf.length = 784) :
    ∃ r, parseCsvLine fl (joinCsv (tL :: ts)) buf = some r ∧ r.ok = false :=
  parseCsvLine_short fl tL ts buf hL hts hlen hbuf

theorem parseCsvLine_rejects_short_row_witness :
    isIntToken ['5'] = true ∧
    (∀ t ∈ List.replicate 783 ['0'], isIntToken t = true) ∧
    (List.replicate 783 ['0']).length < 784 ∧
    (List.replicate 784 (0 : ℚ)).length = 784 ∧
    ∃ r, parseCsvLine binary64 (joinCsv (['5'] :: List.replicate 783 ['0']))
        (List.replicate 784 0) = some r ∧ r.ok = false :=
  ⟨by decide, fun t ht => by rw [List.eq_of_mem_replicate ht]; decide,
    by rw [List.length_replicate]; decide, List.length_replicate _ _,
    parseCsvLine_rejects_short_row binary64 ['5'] (List.replicate 783 ['0'])
      (List.replicate 784 0) (by decide)
      (fun t ht => by rw [List.eq_of_mem_replicate ht]; decide)
      (by rw [List.length_replicate]; decide) (List.length_replicate _ _)⟩

theorem peek_isDigit_of_head (s : List Char) (hs : ∀ c ∈ s.head?, c.isDigit = false) :
    (peek s).isDigit = false := by
  cases s with
  | nil => exact peek_nil_isDigit
  | cons c cs => exact hs c (by simp)

/-- C9: a line of exactly a label and 784 comma-separated pixel tokens is
accepted, and so is that line followed by any string whose first character is
not a decimal digit, with the same label and the same 784 feature values. -/
theorem parseCsvLine_ignores_trailing (fl : Rounding) (tL : List Char)
    (ts : List (List Char)) (s : List Char) (buf : List ℚ) (hL : isIntToken tL = true)
    (hts : ∀ t ∈ ts, isIntToken t = true) (hlen : ts.length = 784)
    (hbuf : buf.length = 784) (hs : ∀ c ∈ s.head?, c.isDigit = false) :
    ∃ r, parseCsvLine fl (joinCsv (tL :: ts)) buf = some r ∧ r.ok = true ∧
      r.features.length = 784 ∧
      parseCsvLine fl (joinCsv (tL :: ts) ++ s) buf = some r := by
  have h1 := parseCsvLine_tokens fl tL ts [] buf hL hts hlen hbuf peek_nil_isDigit
  have h2 := parseCsvLine_tokens fl tL ts s buf hL hts hlen hbuf (peek_isDigit_of_head s hs)
  rw [List.append_nil] at h1
  exact ⟨_, h1, rfl, by simpa using hlen, h2⟩

theorem parseCsvLine_ignores_trailing_witness :
    isIntToken ['5'] = true ∧
    (∀ t ∈ List.replicate 784 ['0'], isIntToken t = true) ∧
    (List.replicate 784 ['0']).length = 784 ∧
    (List.replicate 784 (0 : ℚ)).length = 784 ∧
    (∀ c ∈ [',', '7'].head?, c.isDigit = false) ∧
    ∃ r, parseCsvLine binary64 (joinCsv (['5'] :: List.replicate 784 ['0']))
        (List.replicate 784 0) = some r ∧ r.ok = true ∧ r.features.length = 784 ∧
      parseCsvLine binary64 (joinCsv (['5'] :: List.replicate 784 ['0']) ++ [',', '7'])
        (List.replicate 784 0) = some r :=
  ⟨by decide, fun t ht => by rw [List.eq_of_mem_replicate ht]; decide,
    List.length_replicate _ _, List.length_replicate _ _, by decide,
    parseCsvLine_ignores_trailing binary64 ['5'] (List.replicate 784 ['0']) [',', '7']
      (List.replicate 784 0) (by decide)
      (fun t ht => by rw [List.eq_of_mem_replicate ht]; decide)
      (List.length_replicate _ _) (List.length_replicate _ _) (by decide)⟩

/-- C10 (as amended): on every accepted line the value stored for the pixel
token scanned as the integer `v` is the product `double(v) * inv255`, where
`inv255` is the double `1.0 / 255.0`.  In exact arithmetic that is `v / 255`;
in binary64 arithmetic it is exactly 1 for `v = 255`, exactly 0 for `v = 0`,
and within `[0, 1]` for every `v` in `[0, 255]`. -/
theorem parseCsvLine_stores_product (fl : Rounding) (line : List Char) (buf : List ℚ)
    (r : ParseResult) (hbuf : buf.length = 784) (hr : parseCsvLine fl line buf = some r)
    (hok : r.ok = true) :
    (∀ i, i < 784 → r.features[i]?
        = some (fl (fl (((strtol (pixelStart line i)).1 : Int) : ℚ) * fl (1 / 255)))) ∧
    (∀ v : Int, normalize fl v = fl (fl (v : ℚ) * fl (1 / 255))) ∧
    (∀ v : Int, normalize exact v = (v : ℚ) / 255) ∧
    normalize binary64 255 = 1 ∧ normalize binary64 0 = 0 ∧
    (∀ v : Int, 0 ≤ v → v ≤ 255 → 0 ≤ normalize binary64 v ∧ normalize binary64 v ≤ 1) := by
  obtain ⟨r2, hr2, _, _, _, hval⟩ := parseCsvLine_spec fl line buf hbuf
  rw [hr] at hr2
  cases Option.some.inj hr2
  exact ⟨fun i hi => hval hok i hi, fun _ => rfl, normalize_exact, normalize_binary64_255,
    normalize_binary64_zero, normalize_binary64_range⟩

theorem parseCsvLine_stores_product_witness :
    (List.replicate 784 (0 : ℚ)).length = 784 ∧
    parseCsvLine binary64 (csvLine 1 (List.replicate 784 255)) (List.replicate 784 0)
      = some ⟨true, 1, (List.replicate 784 255).map (normalize binary64)⟩ ∧
    (∀ i, i < 784 → ((List.replicate 784 (255 : Int)).map (normalize binary64))[i]?
        = some (binary64 (binary64
            (((strtol (pixelStart (csvLine 1 (List.replicate 784 255)) i)).1 : Int) : ℚ)
            * binary64 (1 / 255)))) :=
  ⟨List.length_replicate _ _,
    parseCsvLine_csvLine binary64 1 (List.replicate 784 255) (List.replicate 784 0)
      (by decide) (mem_replicate_long _ _ (by decide)) (List.length_replicate _ _)
      (List.length_replicate _ _),
    (parseCsvLine_stores_product binary64 (csvLine 1 (List.replicate 784 255))
      (List.replicate 784 0) ⟨true, 1, (List.replicate 784 255).map (normalize binary64)⟩
      (List.length_replicate _ _)
      (parseCsvLine_csvLine binary64 1 (List.replicate 784 255) (List.replicate 784 0)
        (by decide) (mem_replicate_long _ _ (by decide)) (List.length_replicate _ _)
        (List.length_replicate _ _)) rfl).1⟩

/-- C10 (as stated) fails in binary64 arithmetic: on the accepted row whose
last pixel is 33 the parser stores `33 * inv255` in slot 783, which differs
from the double quotient `33 / 255.0` and from the rational `33 / 255`. -/
theorem normalize_quotient_counterexample :
    ∃ r, parseCsvLine binary64 (csvLine 0 (List.replicate 783 0 ++ [33]))
        (List.replicate 784 0) = some r ∧ r.ok = true ∧
      r.features[783]? = some (normalize binary64 33) ∧
      normalize binary64 33 ≠ binary64 (33 / 255) ∧
      normalize binary64 33 ≠ 33 / 255 := by
  have hps : ∀ p ∈ List.replicate 783 (0 : Int) ++ [33], LONG_MIN ≤ p ∧ p ≤ LONG_MAX := by
    intro p hp
    rcases List.mem_append.mp hp with h | h
    · exact mem_replicate_long _ _ (by decide) p h
    · rw [List.mem_singleton.mp h]
      decide
  refine ⟨_, parseCsvLine_csvLine binary64 0 (List.replicate 783 0 ++ [33])
    (List.replicate 784 0) (by decide) hps
    (by rw [List.length_append, List.length_replicate]; rfl) (List.length_replicate _ _),
    rfl, ?_, ?_, ?_⟩
  · rw [List.map_append, List.map_replicate,
      List.getElem?_append_right (by rw [List.length_replicate]), List.length_replicate]
    rfl
  · rw [normalize_binary64_33, binary64_33_div_255]
    norm_num
  · rw [normalize_binary64_33]
    norm_num

/-! ### The driver -/

theorem freshBuffer_length : freshBuffer.length = 784 := List.length_replicate _ _

/-- Two runs of the parser on the same line, from any two buffers of 784
slots, agree on the flag and the label, and on success on the whole buffer. -/
theorem parseCsvLine_buffer (fl : Rounding) (line : List Char) (b1 b2 : List ℚ)
    (h1 : b1.length = 784) (h2 : b2.length = 784) :
    ∃ r1 r2, parseCsvLine fl line b1 = some r1 ∧ parseCsvLine fl line b2 = some r2 ∧
      r1.ok = r2.ok ∧ r1.label = r2.label ∧ r1.features.length = 784 ∧
      (r1.ok = true → r1 = r2) := by
  obtain ⟨r1, hr1, hl1, hn1, hf1, hv1⟩ := parseCsvLine_spec fl line b1 h1
  obtain ⟨r2, hr2, hl2, hn2, hf2, hv2⟩ := parseCsvLine_spec fl line b2 h2
  have hok : r1.ok = r2.ok := by
    have : r1.ok = false ↔ r2.ok = false := hf1.trans hf2.symm
    cases h : r1.ok <;> cases h' : r2.ok <;> simp_all
  refine ⟨r1, r2, hr1, hr2, hok, by rw [hl1, hl2], hn1, ?_⟩
  intro h
  have hfeat : r1.features = r2.features := by
    apply List.ext_getElem?
    intro i
    by_cases hi : i < 784
    · rw [hv1 h i hi, hv2 (hok ▸ h) i hi]
    · rw [List.getElem?_eq_none (by omega), List.getElem?_eq_none (by omega)]
  cases r1
  cases r2
  simp_all

theorem parseCsvLine_of_accepts (fl : Rounding) (line : List Char)
    (h : accepts fl line = true) :
    ∃ r, r.ok = true ∧ r.features.length = 784 ∧
      parseCsvLine fl line freshBuffer = some r ∧
      ∀ buf, buf.length = 784 → parseCsvLine fl line buf = some r := by
  obtain ⟨r0, _, hr0, _, _, _, hn, _⟩ :=
    parseCsvLine_buffer fl line freshBuffer freshBuffer freshBuffer_length freshBuffer_length
  have hok : r0.ok = true := by simpa [accepts, hr0] using h
  refine ⟨r0, hok, hn, hr0, ?_⟩
  intro buf hbuf
  obtain ⟨r1, r2, hr1, hr2, _, _, _, heq⟩ :=
    parseCsvLine_buffer fl line freshBuffer buf freshBuffer_length hbuf
  rw [hr0] at hr1
  cases Option.some.inj hr1
  rw [hr2, ← heq hok]

theorem parseCsvLine_of_not_accepts (fl : Rounding) (line : List Char)
    (h : accepts fl line = false) (buf : List ℚ) (hbuf : buf.length = 784) :
    ∃ r, parseCsvLine fl line buf = some r ∧ r.ok = false := by
  obtain ⟨r1, r2, hr1, hr2, hok, _⟩ :=
    parseCsvLine_buffer fl line freshBuffer buf freshBuffer_length hbuf
  have h0 : r1.ok = false := by simpa [accepts, hr1] using h
  exact ⟨r2, hr2, by rw [← hok, h0]⟩

theorem scoreLoop_isSome (fl : Rounding) (w f : List ℚ) (row : Nat) :
    ∀ (n i : Nat) (s : ℚ), row + i + n < w.length → i + n ≤ f.length →
      ∃ v, scoreLoop fl w f row n i s = some v := by
  intro n
  induction n with
  | zero => intro i s _ _; exact ⟨s, rfl⟩
  | succ n ih =>
    intro i s hw hf
    have h1 : w[row + (i + 1)]? = some (w.getD (row + (i + 1)) 0) :=
      getElem?_eq_some_getD w _ (by omega)
    have h2 : f[i]? = some (f.getD i 0) := getElem?_eq_some_getD f _ (by omega)
    simp only [scoreLoop, h1, h2]
    exact ih (i + 1) _ (by omega) (by omega)

/-- With buffers of the right size `predictClass` returns a class below 10,
whatever the rounding. -/
theorem predictClass_total (fl : Rounding) (w f : List ℚ) (hw : w.length = 7850)
    (hf : f.length = 784) : ∃ c : Nat, predictClass fl w f = some (c : Int) ∧ c < 10 := by
  have hsc : ∀ c, c < 10 → ∃ bias, w[785 * c]? = some bias ∧
      scoreLoop fl w f (785 * c) kNumPixels 0 bias
        = some ((scoreLoop fl w f (785 * c) kNumPixels 0 (w.getD (785 * c) 0)).getD 0) := by
    intro c hc
    refine ⟨w.getD (785 * c) 0, getElem?_eq_some_getD w _ (by omega), ?_⟩
    obtain ⟨v, hv⟩ := scoreLoop_isSome fl w f (785 * c) kNumPixels 0 (w.getD (785 * c) 0)
      (by simp [kNumPixels]; omega) (by simp [kNumPixels]; omega)
    rw [hv]
    rfl
  obtain ⟨c, hc, hlt, _⟩ := classLoop_argmax fl w f _ hsc 10 0 none 0 (by omega)
    (Or.inl ⟨rfl, rfl, rfl⟩)
  exact ⟨c, by simpa [predictClass, kNumClasses] using hc, hlt⟩

theorem sampleCount_cons_empty (rest : List (List Char)) :
    sampleCount ([] :: rest) = sampleCount rest := by
  simp [sampleCount]

theorem sampleCount_cons (line : List Char) (rest : List (List Char)) (h : line ≠ []) :
    sampleCount (line :: rest) = sampleCount rest + 1 := by
  simp [sampleCount, h]

theorem correctCount_cons_empty (fl : Rounding) (w : List ℚ) (rest : List (List Char)) :
    correctCount fl w ([] :: rest) = correctCount fl w rest := by
  simp [correctCount]

theorem correctCount_cons (fl : Rounding) (w : List ℚ) (line : List Char)
    (rest : List (List Char)) (h : line ≠ []) :
    correctCount fl w (line :: rest)
      = correctCount fl w rest + if rowCorrect fl w line = true then 1 else 0 := by
  simp [correctCount, h, List.countP_cons]

/-- The loop of `main` on lines that are all accepted: `total` grows by the
number of non-empty lines, `correct` by the number of them predicted
correctly. -/
theorem evalLoop_accepted (fl : Rounding) (w : List ℚ) (hw : w.length = 7850) :
    ∀ (lines : List (List Char)) (buf : List ℚ) (total correct : Nat), buf.length = 784 →
      (∀ line ∈ lines, line ≠ [] → accepts fl line = true) →
      evalLoop fl w lines buf total correct
        = some (if total + sampleCount lines = 0 then Exit.noSamples
            else Exit.accuracy (correct + correctCount fl w lines)
              (total + sampleCount lines)) := by
  intro lines
  induction lines with
  | nil =>
    intro buf total correct _ _
    simp only [evalLoop, sampleCount, correctCount, List.countP_nil, Nat.add_zero]
    split_ifs <;> rfl
  | cons line rest ih =>
    intro buf total correct hbuf hacc
    have hrest : ∀ l ∈ rest, l ≠ [] → accepts fl l = true :=
      fun l hl => hacc l (List.mem_cons_of_mem _ hl)
    by_cases hne : line = []
    · subst hne
      simp only [evalLoop, if_true, sampleCount_cons_empty, correctCount_cons_empty]
      exact ih buf total correct hbuf hrest
    · obtain ⟨r, hok, hlen, hfresh, hall⟩ :=
        parseCsvLine_of_accepts fl line (hacc line (List.mem_cons_self _ _) hne)
      obtain ⟨c, hc, _⟩ := predictClass_total fl w r.features hw hlen
      have hrow : rowCorrect fl w line = decide ((c : Int) = r.label) := by
        simp [rowCorrect, hfresh, hok, hc]
      simp only [evalLoop, hne, if_false, hall buf hbuf, hok, Bool.true_eq_false, hc]
      rw [ih r.features (total + 1) _ hlen hrest, sampleCount_cons line rest hne,
        correctCount_cons fl w line rest hne, hrow]
      have e1 : total + 1 + sampleCount rest = total + (sampleCount rest + 1) := by omega
      rw [e1]
      by_cases hp : (c : Int) = r.label
      · simp only [hp, if_true, decide_True]
        have e2 : correct + 1 + correctCount fl w rest
            = correct + (correctCount fl w rest + 1) := by omega
        rw [e2]
      · simp only [hp, if_false, decide_False, Bool.false_eq_true, Nat.add_zero]

/-- The loop of `main` stops at the first rejected non-empty line and reports
its sample index. -/
theorem evalLoop_rejected (fl : Rounding) (w : List ℚ) (hw : w.length = 7850)
    (bad : List Char) (post : List (List Char)) (hbad : bad ≠ [])
    (hrej : accepts fl bad = false) :
    ∀ (pre : List (List Char)) (buf : List ℚ) (total correct : Nat), buf.length = 784 →
      (∀ line ∈ pre, line ≠ [] → accepts fl line = true) →
      evalLoop fl w (pre ++ bad :: post) buf total correct
        = some (Exit.malformed (total + sampleCount pre + 1)) := by
  intro pre
  induction pre with
  | nil =>
    intro buf total correct hbuf _
    obtain ⟨r, hr, hok⟩ := parseCsvLine_of_not_accepts fl bad hrej buf hbuf
    simp [evalLoop, hbad, hr, hok, sampleCount]
  | cons line rest ih =>
    intro buf total correct hbuf hacc
    have hrest : ∀ l ∈ rest, l ≠ [] → accepts fl l = true :=
      fun l hl => hacc l (List.mem_cons_of_mem _ hl)
    by_cases hne : line = []
    · subst hne
      simp only [List.cons_append, evalLoop, if_true, sampleCount_cons_empty]
      exact ih buf total correct hbuf hrest
    · obtain ⟨r, hok, hlen, _, hall⟩ :=
        parseCsvLine_of_accepts fl line (hacc line (List.mem_cons_self _ _) hne)
      obtain ⟨c, hc, _⟩ := predictClass_total fl w r.features hw hlen
      simp only [List.cons_append, evalLoop, hne, if_false, hall buf hbuf, hok,
        Bool.true_eq_false, hc]
      have hstep := ih r.features (total + 1) (if (c : Int) = r.label then correct + 1
        else correct) hlen hrest
      rw [sampleCount_cons line rest hne]
      have e1 : total + (sampleCount rest + 1) + 1 = total + 1 + sampleCount rest + 1 := by
        omega
      rw [e1]
      exact hstep

theorem loadWeights_length (tokens : List (Option ℚ)) (weights : List ℚ)
    (h : loadWeights (some tokens) = .ok weights) : weights.length = 7850 := by
  simp only [loadWeights, kNumClasses, kModelRowSize, kNumPixels] at h
  split_ifs at h with hlen
  cases h
  simpa using hlen

theorem main_eq_evalLoop (fl : Rounding) (tokens : List (Option ℚ)) (weights : List ℚ)
    (content : List Char) (h : loadWeights (some tokens) = .ok weights) :
    main fl 3 (some tokens) (some content)
      = evalLoop fl weights (getlines content) freshBuffer 0 0 := by
  simp only [main, h, freshBuffer]
  rfl

theorem evalLoop_accuracy_pos (fl : Rounding) (w : List ℚ) :
    ∀ (lines : List (List Char)) (buf : List ℚ) (total correct c t : Nat),
      evalLoop fl w lines buf total correct = some (Exit.accuracy c t) → 0 < t := by
  intro lines
  induction lines with
  | nil =>
    intro buf total correct c t h
    by_cases h0 : total = 0
    · simp [evalLoop, h0] at h
    · simp only [evalLoop, h0, if_false, Option.some.injEq, Exit.accuracy.injEq] at h
      omega
  | cons line rest ih =>
    intro buf total correct c t h
    by_cases hne : line = []
    · simp only [evalLoop, hne, if_true] at h
      exact ih _ _ _ _ _ h
    · cases hp : parseCsvLine fl line buf with
      | none => simp [evalLoop, hne, hp] at h
      | some r =>
        by_cases hok : r.ok = false
        · simp [evalLoop, hne, hp, hok] at h
        · cases hq : predictClass fl w r.features with
          | none => simp [evalLoop, hne, hp, hok, hq] at h
          | some predicted =>
            simp only [evalLoop, hne, if_false, hp, hok, hq] at h
            exact ih _ _ _ _ _ h

theorem sampleCount_of_all_empty (lines : List (List Char)) (h : ∀ line ∈ lines, line = []) :
    sampleCount lines = 0 := by
  simp only [sampleCount, List.countP_eq_zero]
  intro line hl
  simp [h line hl]

theorem sampleCount_pos (lines : List (List Char)) (h : ∃ line ∈ lines, line ≠ []) :
    0 < sampleCount lines := by
  obtain ⟨line, hl, hne⟩ := h
  simp only [sampleCount, List.countP_pos_iff]
  exact ⟨line, hl, by simpa using hne⟩

/-! ### Concrete streams, for the witnesses -/

theorem getlinesAux_line (l rest : List Char) (h : ∀ c ∈ l, c ≠ '\n') :
    ∀ cur, getlinesAux cur (l ++ '\n' :: rest) = (cur.reverse ++ l) :: getlinesAux [] rest := by
  induction l with
  | nil => intro cur; simp [getlinesAux]
  | cons c cs ih =>
    intro cur
    have hc : c ≠ '\n' := h c (by simp)
    have hrec := ih (fun x hx => h x (by simp [hx])) (c :: cur)
    simp only [List.cons_append, getlinesAux, hc, if_false]
    simpa using hrec

theorem getlinesAux_last (l : List Char) (h : ∀ c ∈ l, c ≠ '\n') :
    ∀ cur, cur.reverse ++ l ≠ [] → getlinesAux cur l = [cur.reverse ++ l] := by
  induction l with
  | nil =>
    intro cur hne
    have : cur ≠ [] := by simpa using hne
    simp [getlinesAux, this]
  | cons c cs ih =>
    intro cur _
    have hc : c ≠ '\n' := h c (by simp)
    simp only [getlinesAux, hc, if_false]
    rw [ih (fun x hx => h x (by simp [hx])) (c :: cur) (by simp)]
    simp

theorem mem_joinCsv (c : Char) : ∀ ts : List (List Char), c ∈ joinCsv ts →
    c = ',' ∨ ∃ t ∈ ts, c ∈ t
  | [], h => by simp [joinCsv] at h
  | [t], h => Or.inr ⟨t, by simp, by simpa [joinCsv] using h⟩
  | t :: t2 :: ts, h => by
    have hj : joinCsv (t :: t2 :: ts) = t ++ ',' :: joinCsv (t2 :: ts) := by simp [joinCsv]
    rw [hj, List.mem_append, List.mem_cons] at h
    rcases h with h | h | h
    · exact Or.inr ⟨t, by simp, h⟩
    · exact Or.inl h
    · rcases mem_joinCsv c (t2 :: ts) h with h' | ⟨x, hx, hcx⟩
      · exact Or.inl h'
      · exact Or.inr ⟨x, List.mem_cons_of_mem _ hx, hcx⟩

/-- The row `0,0,...,0` with label 0 and 784 zero pixels. -/
theorem zeroRow_chars : ∀ c ∈ joinCsv (['0'] :: List.replicate 784 ['0']), c ≠ '\n' := by
  intro c hc
  rcases mem_joinCsv c _ hc with h | ⟨t, ht, hct⟩
  · rw [h]; decide
  · have ht0 : t = ['0'] := by
      rcases List.mem_cons.mp ht with h | h
      · exact h
      · exact List.eq_of_mem_replicate h
    rw [ht0, List.mem_singleton] at hct
    rw [hct]; decide

theorem joinCsv_ne_nil (t : List Char) (ts : List (List Char)) (h : t ≠ []) :
    joinCsv (t :: ts) ≠ [] := by
  cases ts <;> simp [joinCsv, h]

theorem zeroRow_ne_nil : joinCsv (['0'] :: List.replicate 784 ['0']) ≠ [] :=
  joinCsv_ne_nil _ _ (by decide)

theorem accepts_tokens (fl : Rounding) (tL : List Char) (ts : List (List Char))
    (hL : isIntToken tL = true) (hts : ∀ t ∈ ts, isIntToken t = true)
    (hlen : ts.length = 784) : accepts fl (joinCsv (tL :: ts)) = true := by
  have h := parseCsvLine_tokens fl tL ts [] freshBuffer hL hts hlen freshBuffer_length
    peek_nil_isDigit
  rw [List.append_nil] at h
  simp [accepts, h]

theorem zeroRow_accepts (fl : Rounding) :
    accepts fl (joinCsv (['0'] :: List.replicate 784 ['0'])) = true :=
  accepts_tokens fl ['0'] _ (by decide)
    (fun t ht => by rw [List.eq_of_mem_replicate ht]; decide) (List.length_replicate _ _)

theorem loadWeights_map_some (ws : List ℚ) (h : ws.length = 7850) :
    loadWeights (some (ws.map some)) = .ok ws := by
  have htw : (ws.map some).takeWhile Option.isSome = ws.map some := by
    rw [List.takeWhile_eq_self_iff]
    intro x hx
    obtain ⟨v, _, rfl⟩ := List.mem_map.mp hx
    rfl
  have hfm : (ws.map some).filterMap id = ws := by
    rw [List.filterMap_map]
    simp
  simp only [loadWeights, readValues_eq, htw, hfm, List.nil_append, h, kNumClasses,
    kModelRowSize, kNumPixels]
  rfl

theorem getlines_single (l : List Char) (h : ∀ c ∈ l, c ≠ '\n') (hne : l ≠ []) :
    getlines l = [l] := by
  have h1 := getlinesAux_last l h [] (by simpa using hne)
  simpa [getlines] using h1

theorem getlines_line (l rest : List Char) (h : ∀ c ∈ l, c ≠ '\n') :
    getlines (l ++ '\n' :: rest) = l :: getlines rest := by
  have h1 := getlinesAux_line l rest h []
  simpa [getlines] using h1

theorem getlines_zeroRow :
    getlines (joinCsv (['0'] :: List.replicate 784 ['0']))
      = [joinCsv (['0'] :: List.replicate 784 ['0'])] :=
  getlines_single _ zeroRow_chars zeroRow_ne_nil

theorem getlines_zeroRow_bad :
    getlines (joinCsv (['0'] :: List.replicate 784 ['0']) ++ '\n' :: ['7', ';'])
      = [joinCsv (['0'] :: List.replicate 784 ['0'])] ++ ['7', ';'] :: [] := by
  rw [getlines_line _ _ zeroRow_chars]
  have h2 : getlines ['7', ';'] = [['7', ';']] := by decide
  rw [h2]
  rfl

theorem accepts_bad (fl : Rounding) : accepts fl ['7', ';'] = false := by
  have h : strtol ['7', ';'] = (7, 1) := by decide
  simp [accepts, parseCsvLine, h, peek]

/-! ### The claims on the driver -/

/-- C6: for a valid model and a test stream with at least one non-empty line,
all of whose non-empty lines the parser accepts, the run completes with exit
status 0, `total` the number of non-empty lines and `correct` the number of
non-empty lines whose parsed label equals the class predicted from its parsed
features; it reports the ratio `correct / total`, and an empty line changes
neither counter. -/
theorem main_reports_accuracy (fl : Rounding) (tokens : List (Option ℚ)) (weights : List ℚ)
    (content : List Char) (hload : loadWeights (some tokens) = .ok weights)
    (hne : ∃ line ∈ getlines content, line ≠ [])
    (hacc : ∀ line ∈ getlines content, line ≠ [] → accepts fl line = true) :
    main fl 3 (some tokens) (some content)
        = some (Exit.accuracy (correctCount fl weights (getlines content))
            (sampleCount (getlines content))) ∧
    (Exit.accuracy (correctCount fl weights (getlines content))
        (sampleCount (getlines content))).status = 0 ∧
    (Exit.accuracy (correctCount fl weights (getlines content))
        (sampleCount (getlines content))).reported fl
      = some (fl (fl (correctCount fl weights (getlines content) : ℚ)
          / fl (sampleCount (getlines content) : ℚ))) ∧
    (Exit.accuracy (correctCount fl weights (getlines content))
        (sampleCount (getlines content))).reported exact
      = some ((correctCount fl weights (getlines content) : ℚ)
          / (sampleCount (getlines content) : ℚ)) ∧
    (∀ lines buf total correct, evalLoop fl weights ([] :: lines) buf total correct
      = evalLoop fl weights lines buf total correct) := by
  have hw := loadWeights_length tokens weights hload
  have hpos := sampleCount_pos _ hne
  refine ⟨?_, rfl, rfl, rfl, fun _ _ _ _ => by simp [evalLoop]⟩
  rw [main_eq_evalLoop fl tokens weights content hload,
    evalLoop_accepted fl weights hw _ _ 0 0 freshBuffer_length hacc]
  simp only [Nat.zero_add]
  rw [if_neg (by omega)]

theorem main_reports_accuracy_witness :
    loadWeights (some ((List.replicate 7850 (0 : ℚ)).map some))
      = .ok (List.replicate 7850 0) ∧
    (∃ line ∈ getlines (joinCsv (['0'] :: List.replicate 784 ['0'])), line ≠ []) ∧
    (∀ line ∈ getlines (joinCsv (['0'] :: List.replicate 784 ['0'])), line ≠ [] →
      accepts binary64 line = true) ∧
    main binary64 3 (some ((List.replicate 7850 (0 : ℚ)).map some))
        (some (joinCsv (['0'] :: List.replicate 784 ['0'])))
      = some (Exit.accuracy
          (correctCount binary64 (List.replicate 7850 0)
            (getlines (joinCsv (['0'] :: List.replicate 784 ['0']))))
          (sampleCount (getlines (joinCsv (['0'] :: List.replicate 784 ['0']))))) :=
  ⟨loadWeights_map_some _ (List.length_replicate _ _),
    ⟨_, by rw [getlines_zeroRow]; exact List.mem_singleton_self _, zeroRow_ne_nil⟩,
    fun line hl _ => by
      rw [getlines_zeroRow, List.mem_singleton] at hl
      rw [hl]
      exact zeroRow_accepts binary64,
    (main_reports_accuracy binary64 _ (List.replicate 7850 0)
      (joinCsv (['0'] :: List.replicate 784 ['0']))
      (loadWeights_map_some _ (List.length_replicate _ _))
      ⟨_, by rw [getlines_zeroRow]; exact List.mem_singleton_self _, zeroRow_ne_nil⟩
      (fun line hl _ => by
        rw [getlines_zeroRow, List.mem_singleton] at hl
        rw [hl]
        exact zeroRow_accepts binary64)).1⟩

/-- C7: for a valid model and a test stream in which some non-empty line is
rejected by the parser, the run ends with the malformed-row error (exit status
1, no accuracy reported), however many valid rows precede that line; the
sample index reported is 1 plus the number of non-empty lines before the first
rejected line. -/
theorem main_malformed_row (fl : Rounding) (tokens : List (Option ℚ)) (weights : List ℚ)
    (content : List Char) (pre : List (List Char)) (bad : List Char)
    (post : List (List Char)) (hload : loadWeights (some tokens) = .ok weights)
    (hlines : getlines content = pre ++ bad :: post)
    (hpre : ∀ line ∈ pre, line ≠ [] → accepts fl line = true)
    (hbad : bad ≠ []) (hrej : accepts fl bad = false) :
    main fl 3 (some tokens) (some content) = some (Exit.malformed (sampleCount pre + 1)) ∧
    (Exit.malformed (sampleCount pre + 1)).status = 1 ∧
    (Exit.malformed (sampleCount pre + 1)).reported fl = none := by
  have hw := loadWeights_length tokens weights hload
  refine ⟨?_, rfl, rfl⟩
  rw [main_eq_evalLoop fl tokens weights content hload, hlines,
    evalLoop_rejected fl weights hw bad post hbad hrej pre _ 0 0 freshBuffer_length hpre]
  simp

theorem main_malformed_row_witness :
    loadWeights (some ((List.replicate 7850 (0 : ℚ)).map some))
      = .ok (List.replicate 7850 0) ∧
    getlines (joinCsv (['0'] :: List.replicate 784 ['0']) ++ '\n' :: ['7', ';'])
      = [joinCsv (['0'] :: List.replicate 784 ['0'])] ++ ['7', ';'] :: [] ∧
    (['7', ';'] : List Char) ≠ [] ∧ accepts binary64 ['7', ';'] = false ∧
    main binary64 3 (some ((List.replicate 7850 (0 : ℚ)).map some))
        (some (joinCsv (['0'] :: List.replicate 784 ['0']) ++ '\n' :: ['7', ';']))
      = some (Exit.malformed (sampleCount [joinCsv (['0'] :: List.replicate 784 ['0'])] + 1)) :=
  ⟨loadWeights_map_some _ (List.length_replicate _ _), getlines_zeroRow_bad, by decide,
    accepts_bad binary64,
    (main_malformed_row binary64 _ (List.replicate 7850 0) _
      [joinCsv (['0'] :: List.replicate 784 ['0'])] ['7', ';'] []
      (loadWeights_map_some _ (List.length_replicate _ _)) getlines_zeroRow_bad
      (fun line hl _ => by
        rw [List.mem_singleton] at hl
        rw [hl]
        exact zeroRow_accepts binary64)
      (by decide) (accepts_bad binary64)).1⟩

/-- C8: for a valid model and a test stream without any non-empty line, the
run fails with the empty-dataset error (exit status 1, no accuracy reported);
and whenever a run reports an accuracy its `total` is positive, so the
quotient is never taken with a zero total. -/
theorem main_no_samples (fl : Rounding) (tokens : List (Option ℚ)) (weights : List ℚ)
    (content : List Char) (hload : loadWeights (some tokens) = .ok weights)
    (hempty : ∀ line ∈ getlines content, line = []) :
    main fl 3 (some tokens) (some content) = some Exit.noSamples ∧
    Exit.noSamples.status = 1 ∧ Exit.noSamples.reported fl = none ∧
    (∀ other correct total, main fl 3 (some tokens) (some other)
      = some (Exit.accuracy correct total) → 0 < total) := by
  have hw := loadWeights_length tokens weights hload
  refine ⟨?_, rfl, rfl, ?_⟩
  · rw [main_eq_evalLoop fl tokens weights content hload,
      evalLoop_accepted fl weights hw _ _ 0 0 freshBuffer_length
        (fun line hl hne => absurd (hempty line hl) hne),
      sampleCount_of_all_empty _ hempty]
    rfl
  · intro other correct total h
    rw [main_eq_evalLoop fl tokens weights other hload] at h
    exact evalLoop_accuracy_pos fl weights _ _ _ _ _ _ h

theorem main_no_samples_witness :
    loadWeights (some ((List.replicate 7850 (0 : ℚ)).map some))
      = .ok (List.replicate 7850 0) ∧
    (∀ line ∈ getlines ['\n', '\n'], line = []) ∧
    main binary64 3 (some ((List.replicate 7850 (0 : ℚ)).map some)) (some ['\n', '\n'])
      = some Exit.noSamples :=
  ⟨loadWeights_map_some _ (List.length_replicate _ _), by decide,
    (main_no_samples binary64 _ (List.replicate 7850 0) ['\n', '\n']
      (loadWeights_map_some _ (List.length_replicate _ _)) (by decide)).1⟩

/-! ### predictClass on the zero model, bounds of its reads -/

theorem scoreLoop_zero_model (fl : Rounding) (h0 : fl 0 = 0) (w f : List ℚ) (row : Nat)
    (hw : ∀ k, k < 7850 → w[k]? = some 0) :
    ∀ (n i : Nat), row + i + n < 7850 → i + n ≤ f.length →
      scoreLoop fl w f row n i 0 = some 0 := by
  intro n
  induction n with
  | zero => intro i _ _; rfl
  | succ n ih =>
    intro i hlt hf
    have h1 : w[row + (i + 1)]? = some 0 := hw _ (by omega)
    have h2 : f[i]? = some (f.getD i 0) := getElem?_eq_some_getD f _ (by omega)
    simp only [scoreLoop, h1, h2, zero_mul, h0, add_zero]
    exact ih (i + 1) (by omega) (by omega)

theorem predictClass_all_zero (fl : Rounding) (h0 : fl 0 = 0) (w f : List ℚ)
    (hw : ∀ k, k < 7850 → w[k]? = some 0) (hf : f.length = 784) :
    predictClass fl w f = some 0 := by
  have hsc : ∀ c, c < 10 → ∃ bias, w[785 * c]? = some bias ∧
      scoreLoop fl w f (785 * c) kNumPixels 0 bias = some ((fun _ => (0 : ℚ)) c) := by
    intro c hc
    exact ⟨0, hw _ (by omega),
      scoreLoop_zero_model fl h0 w f (785 * c) hw kNumPixels 0 (by simp [kNumPixels]; omega)
        (by simp [kNumPixels]; omega)⟩
  obtain ⟨c, hc, _, _, hfirst⟩ := classLoop_argmax fl w f _ hsc 10 0 none 0 (by omega)
    (Or.inl ⟨rfl, rfl, rfl⟩)
  have hc0 : c = 0 := by
    by_contra hne
    exact absurd (hfirst 0 (Nat.pos_of_ne_zero hne)) (lt_irrefl _)
  subst hc0
  simpa [predictClass, kNumClasses] using hc

/-- With the model of 7850 zeros every class scores 0 and class 0 is returned. -/
theorem predictClass_zero_weights (fl : Rounding) (h0 : fl 0 = 0) (f : List ℚ)
    (hf : f.length = 784) : predictClass fl (List.replicate 7850 0) f = some 0 :=
  predictClass_all_zero fl h0 _ f (fun k hk => getElem?_replicate_lt 7850 k 0 hk) hf

theorem getD_replicate_zero (n k : Nat) : (List.replicate n (0 : ℚ)).getD k 0 = 0 := by
  by_cases hk : k < n
  · simp [List.getD, getElem?_replicate_lt n k 0 hk]
  · simp [List.getD, List.getElem?_eq_none (by simpa using hk : (List.replicate n (0 : ℚ)).length ≤ k)]

theorem score_all_zero (w f : List ℚ) (hz : ∀ k, w.getD k 0 = 0) (c : Nat) :
    score w f c = 0 := by
  simp only [score, hz, zero_mul, Finset.sum_const_zero, add_zero]

theorem decimal_zero : decimal 0 = ['0'] := by decide

theorem csvLine_zeroRow :
    csvLine 0 (List.replicate 784 0) = joinCsv (['0'] :: List.replicate 784 ['0']) := by
  rw [csvLine, List.map_replicate, decimal_zero]

theorem rowCorrect_of_parse (fl : Rounding) (w : List ℚ) (line : List Char) (r : ParseResult)
    (hp : parseCsvLine fl line freshBuffer = some r) (hok : r.ok = true)
    (hq : predictClass fl w r.features = some r.label) : rowCorrect fl w line = true := by
  simp [rowCorrect, hp, hok, hq]

theorem rowCorrect_zeroRow (fl : Rounding) (h0 : fl 0 = 0) :
    rowCorrect fl (List.replicate 7850 0) (csvLine 0 (List.replicate 784 0)) = true :=
  rowCorrect_of_parse fl _ _ _
    (parseCsvLine_csvLine fl 0 (List.replicate 784 0) freshBuffer (by decide)
      (mem_replicate_long _ _ (by decide)) (List.length_replicate _ _) freshBuffer_length)
    rfl
    (predictClass_zero_weights fl h0 ((List.replicate 784 (0 : Int)).map (normalize fl))
      (by rw [List.length_map, List.length_replicate]))

theorem evalLoop_single (fl : Rounding) (w : List ℚ) (line : List Char) (buf : List ℚ)
    (hw : w.length = 7850) (hbuf : buf.length = 784) (hne : line ≠ [])
    (hacc : accepts fl line = true) :
    evalLoop fl w [line] buf 0 0
      = some (Exit.accuracy (if rowCorrect fl w line = true then 1 else 0) 1) := by
  rw [evalLoop_accepted fl w hw [line] buf 0 0 hbuf
    (fun l hl _ => by rw [List.mem_singleton.mp hl]; exact hacc),
    sampleCount_cons line [] hne, correctCount_cons fl w line [] hne]
  simp [sampleCount, correctCount]

theorem loadWeights_zero_model :
    loadWeights (some (List.replicate 7850 (some (0 : ℚ)))) = .ok (List.replicate 7850 0) := by
  have h := loadWeights_map_some (List.replicate 7850 0) (List.length_replicate _ _)
  rwa [List.map_replicate] at h

theorem main_zeroRow (fl : Rounding) (h0 : fl 0 = 0) (content : List Char)
    (hlines : getlines content = [csvLine 0 (List.replicate 784 0)]) :
    main fl 3 (some (List.replicate 7850 (some 0))) (some content)
      = some (Exit.accuracy 1 1) := by
  have hne : csvLine 0 (List.replicate 784 0) ≠ [] := by
    rw [csvLine_zeroRow]
    exact zeroRow_ne_nil
  have hacc : accepts fl (csvLine 0 (List.replicate 784 0)) = true := by
    rw [csvLine_zeroRow]
    exact zeroRow_accepts fl
  rw [main_eq_evalLoop fl _ _ content loadWeights_zero_model, hlines,
    evalLoop_single fl _ _ _ (List.length_replicate _ _) freshBuffer_length hne hacc,
    rowCorrect_zeroRow fl h0]
  rfl

/-- C11: with a model of 7850 zeros `predictClass` returns class 0 for every
feature vector of length 784 (all scores are 0 and the first index wins);
hence the run on that model and a test stream whose only row is label 0 with
784 zero pixels (with or without a final newline) ends with
`correct = total = 1` and reports the accuracy 1. -/
theorem zero_model_accuracy_one (fl : Rounding) (f : List ℚ) (h0 : fl 0 = 0)
    (h1 : fl 1 = 1) (hf : f.length = 784) :
    predictClass fl (List.replicate 7850 0) f = some 0 ∧
    (∀ c, c < 10 → score (List.replicate 7850 0) f c = 0) ∧
    main fl 3 (some (List.replicate 7850 (some 0)))
        (some (csvLine 0 (List.replicate 784 0))) = some (Exit.accuracy 1 1) ∧
    main fl 3 (some (List.replicate 7850 (some 0)))
        (some (csvLine 0 (List.replicate 784 0) ++ ['\n'])) = some (Exit.accuracy 1 1) ∧
    (Exit.accuracy 1 1).status = 0 ∧ (Exit.accuracy 1 1).reported fl = some 1 := by
  have hchars : ∀ c ∈ csvLine 0 (List.replicate 784 0), c ≠ '\n' := by
    rw [csvLine_zeroRow]
    exact zeroRow_chars
  have hne : csvLine 0 (List.replicate 784 0) ≠ [] := by
    rw [csvLine_zeroRow]
    exact zeroRow_ne_nil
  have hnil : getlines ([] : List Char) = [] := by decide
  refine ⟨predictClass_zero_weights fl h0 f hf, ?_,
    main_zeroRow fl h0 _ (getlines_single _ hchars hne),
    main_zeroRow fl h0 _ (by rw [getlines_line _ _ hchars, hnil]), rfl, ?_⟩
  · intro c _
    exact score_all_zero _ f (getD_replicate_zero 7850) c
  · simp [Exit.reported, h1]

theorem zero_model_accuracy_one_witness :
    binary64 0 = 0 ∧ binary64 1 = 1 ∧ (List.replicate 784 (1 : ℚ)).length = 784 ∧
    predictClass binary64 (List.replicate 7850 0) (List.replicate 784 1) = some 0 ∧
    main binary64 3 (some (List.replicate 7850 (some 0)))
        (some (csvLine 0 (List.replicate 784 0))) = some (Exit.accuracy 1 1) :=
  have h1 : binary64 1 = 1 := by
    have := binary64_natCast 1 (by norm_num)
    simpa using this
  have h := zero_model_accuracy_one binary64 (List.replicate 784 1) binary64_zero h1
    (List.length_replicate _ _)
  ⟨binary64_zero, h1, List.length_replicate _ _, h.1, h.2.2.1⟩

theorem predictClass_no_model (fl : Rounding) (f : List ℚ) : predictClass fl [] f = none := rfl

/-- C15: for a weight sequence of length 7850 and a feature vector of length
784, every index `predictClass` reads (weights at `785 * c + j` for `c < 10`
and `j < 785`, features at `i < 784`) is within bounds, no read takes the
out-of-range branch, and the result is a class index in `[0, 10)`, whatever
the rounding of the arithmetic. -/
theorem predictClass_reads_in_bounds (fl : Rounding) (w f : List ℚ) (hw : w.length = 7850)
    (hf : f.length = 784) :
    (∀ c j, c < 10 → j < 785 → ∃ x, w[785 * c + j]? = some x) ∧
    (∀ i, i < 784 → ∃ x, f[i]? = some x) ∧
    (∀ c, c < 10 → ∃ bias s, w[785 * c]? = some bias ∧
      scoreLoop fl w f (785 * c) kNumPixels 0 bias = some s) ∧
    predictClass fl w f ≠ none ∧
    ∃ c : Nat, predictClass fl w f = some (c : Int) ∧ c < 10 := by
  obtain ⟨c, hc, hlt⟩ := predictClass_total fl w f hw hf
  refine ⟨fun c j hc hj => ⟨_, getElem?_eq_some_getD w _ (by omega)⟩,
    fun i hi => ⟨_, getElem?_eq_some_getD f _ (by omega)⟩, ?_, by rw [hc]; simp, c, hc, hlt⟩
  intro d hd
  obtain ⟨s, hs⟩ := scoreLoop_isSome fl w f (785 * d) kNumPixels 0 (w.getD (785 * d) 0)
    (by simp [kNumPixels]; omega) (by simp [kNumPixels]; omega)
  exact ⟨_, s, getElem?_eq_some_getD w _ (by omega), hs⟩

theorem predictClass_reads_in_bounds_witness :
    (List.replicate 7850 (1 : ℚ)).length = 7850 ∧ (List.replicate 784 (1 : ℚ)).length = 784 ∧
    predictClass binary64 (List.replicate 7850 1) (List.replicate 784 1) ≠ none ∧
    ∃ c : Nat, predictClass binary64 (List.replicate 7850 1) (List.replicate 784 1)
      = some (c : Int) ∧ c < 10 :=
  ⟨List.length_replicate _ _, List.length_replicate _ _,
    (predictClass_reads_in_bounds binary64 (List.replicate 7850 1) (List.replicate 784 1)
      (List.length_replicate _ _) (List.length_replicate _ _)).2.2.2⟩

/-- The loop of `main` does not depend on what the feature buffer holds when
it reaches a line. -/
theorem evalLoop_buffer (fl : Rounding) (w : List ℚ) :
    ∀ (lines : List (List Char)) (b1 b2 : List ℚ) (total correct : Nat),
      b1.length = 784 → b2.length = 784 →
      evalLoop fl w lines b1 total correct = evalLoop fl w lines b2 total correct := by
  intro lines
  induction lines with
  | nil => intro b1 b2 total correct _ _; rfl
  | cons line rest ih =>
    intro b1 b2 total correct h1 h2
    by_cases hne : line = []
    · simp only [evalLoop, hne, if_true]
      exact ih b1 b2 total correct h1 h2
    · obtain ⟨r1, r2, hr1, hr2, hok, _, _, heq⟩ := parseCsvLine_buffer fl line b1 b2 h1 h2
      simp only [evalLoop, hne, if_false, hr1, hr2]
      by_cases hb : r1.ok = true
      · rw [← heq hb]
      · have hb1 : r1.ok = false := by simpa using hb
        have hb2 : r2.ok = false := by rw [← hok, hb1]
        simp only [hb1, hb2, if_true]

/-- C16: the feature buffer carries nothing from one row to the next: from
any two buffers of 784 slots `parseCsvLine` returns the same flag and the same
label and, on success, the same final buffer, so the prediction for the row
and the whole rest of the run are the same. -/
theorem parseCsvLine_buffer_independent (fl : Rounding) (w : List ℚ) (line : List Char)
    (b1 b2 : List ℚ) (h1 : b1.length = 784) (h2 : b2.length = 784) :
    (∃ r1 r2, parseCsvLine fl line b1 = some r1 ∧ parseCsvLine fl line b2 = some r2 ∧
      r1.ok = r2.ok ∧ r1.label = r2.label ∧
      (r1.ok = true → r1.features = r2.features ∧ r1.features.length = 784 ∧
        predictClass fl w r1.features = predictClass fl w r2.features)) ∧
    (∀ lines total correct,
      evalLoop fl w lines b1 total correct = evalLoop fl w lines b2 total correct) := by
  obtain ⟨r1, r2, hr1, hr2, hok, hlab, hlen, heq⟩ := parseCsvLine_buffer fl line b1 b2 h1 h2
  refine ⟨⟨r1, r2, hr1, hr2, hok, hlab, fun hb => ?_⟩,
    fun lines total correct => evalLoop_buffer fl w lines b1 b2 total correct h1 h2⟩
  rw [← heq hb]
  exact ⟨rfl, hlen, rfl⟩

theorem parseCsvLine_buffer_independent_witness :
    (List.replicate 784 (0 : ℚ)).length = 784 ∧ (List.replicate 784 (1 : ℚ)).length = 784 ∧
    ∀ lines total correct,
      evalLoop binary64 (List.replicate 7850 0) lines (List.replicate 784 0) total correct
        = evalLoop binary64 (List.replicate 7850 0) lines (List.replicate 784 1) total correct :=
  ⟨List.length_replicate _ _, List.length_replicate _ _,
    (parseCsvLine_buffer_independent binary64 (List.replicate 7850 0)
      (joinCsv (['0'] :: List.replicate 784 ['0'])) (List.replicate 784 0)
      (List.replicate 784 1) (List.length_replicate _ _) (List.length_replicate _ _)).2⟩

theorem parseCsvLine_nil (fl : Rounding) (buf : List ℚ) :
    parseCsvLine fl [] buf = some ⟨false, toInt32 0, buf⟩ := by
  have h : strtol [] = (0, 0) := by decide
  simp [parseCsvLine, h]

/-- C17: labels are not validated, but for a valid model an accepted row whose
parsed label is negative or greater than 9 is never counted as correct: the
predicted class is an index in `[0, 10)`, so the loop increments `total` and
leaves `correct` as it is. -/
theorem out_of_range_label_not_correct (fl : Rounding) (w : List ℚ) (line : List Char)
    (rest : List (List Char)) (buf : List ℚ) (total correct : Nat) (r : ParseResult)
    (hw : w.length = 7850) (hbuf : buf.length = 784)
    (hr : parseCsvLine fl line buf = some r) (hok : r.ok = true)
    (hlab : r.label < 0 ∨ 9 < r.label) :
    (∃ c : Nat, predictClass fl w r.features = some (c : Int) ∧ c < 10) ∧
    predictClass fl w r.features ≠ some r.label ∧
    rowCorrect fl w line = false ∧
    evalLoop fl w (line :: rest) buf total correct
      = evalLoop fl w rest r.features (total + 1) correct := by
  have hne : line ≠ [] := by
    intro h0
    rw [h0, parseCsvLine_nil] at hr
    cases Option.some.inj hr
    exact absurd hok (by simp)
  obtain ⟨r1, r2, hr1, hr2, _, _, hlen1, heq⟩ :=
    parseCsvLine_buffer fl line buf freshBuffer hbuf freshBuffer_length
  rw [hr] at hr1
  cases Option.some.inj hr1
  have hfresh : parseCsvLine fl line freshBuffer = some r := by rw [hr2, ← heq hok]
  obtain ⟨c, hc, hlt⟩ := predictClass_total fl w r.features hw hlen1
  have hneq : (c : Int) ≠ r.label := by
    intro h
    rcases hlab with h1 | h1 <;> omega
  refine ⟨⟨c, hc, hlt⟩, ?_, ?_, ?_⟩
  · rw [hc]
    intro h
    exact hneq (Option.some.inj h)
  · simp [rowCorrect, hfresh, hok, hc, hneq]
  · simp only [evalLoop, hne, if_false, hr, hok, Bool.true_eq_false, hc, hneq]

theorem out_of_range_label_not_correct_witness :
    (List.replicate 7850 (0 : ℚ)).length = 7850 ∧ (List.replicate 784 (0 : ℚ)).length = 784 ∧
    parseCsvLine binary64 (csvLine 10 (List.replicate 784 0)) (List.replicate 784 0)
      = some ⟨true, 10, (List.replicate 784 0).map (normalize binary64)⟩ ∧
    ((10 : Int) < 0 ∨ (9 : Int) < 10) ∧
    rowCorrect binary64 (List.replicate 7850 0) (csvLine 10 (List.replicate 784 0)) = false ∧
    evalLoop binary64 (List.replicate 7850 0) [csvLine 10 (List.replicate 784 0)]
        (List.replicate 784 0) 0 0
      = evalLoop binary64 (List.replicate 7850 0) []
          ((List.replicate 784 0).map (normalize binary64)) 1 0 :=
  have hp := parseCsvLine_csvLine binary64 10 (List.replicate 784 0) (List.replicate 784 0)
    (by decide) (mem_replicate_long _ _ (by decide)) (List.length_replicate _ _)
    (List.length_replicate _ _)
  have h := out_of_range_label_not_correct binary64 (List.replicate 7850 0)
    (csvLine 10 (List.replicate 784 0)) [] (List.replicate 784 0) 0 0
    ⟨true, 10, (List.replicate 784 0).map (normalize binary64)⟩
    (List.length_replicate _ _) (List.length_replicate _ _) hp rfl (Or.inr (by decide))
  ⟨List.length_replicate _ _, List.length_replicate _ _, hp, Or.inr (by decide), h.2.2.1,
    h.2.2.2⟩

/-! ### The accuracy tally -/

/-- The state of the loop of `main` after a run of lines: either the loop
goes on from a buffer and two counters with `correct ≤ total`, or it has left
with the malformed-row error (or an out-of-range access). -/
theorem evalLoop_after (fl : Rounding) (w : List ℚ) :
    ∀ (pre : List (List Char)) (buf : List ℚ) (total correct : Nat), correct ≤ total →
      (∃ buf2 total2 correct2, correct2 ≤ total2 ∧ total ≤ total2 ∧
        ∀ post, evalLoop fl w (pre ++ post) buf total correct
          = evalLoop fl w post buf2 total2 correct2) ∨
      (∃ e, (e = none ∨ ∃ k, e = some (Exit.malformed k)) ∧
        ∀ post, evalLoop fl w (pre ++ post) buf total correct = e) := by
  intro pre
  induction pre with
  | nil =>
    intro buf total correct h
    exact Or.inl ⟨buf, total, correct, h, le_refl _, fun _ => rfl⟩
  | cons line rest ih =>
    intro buf total correct h
    by_cases hne : line = []
    · rcases ih buf total correct h with ⟨b2, t2, c2, h1, h2, h3⟩ | ⟨e, he, h3⟩
      · refine Or.inl ⟨b2, t2, c2, h1, h2, fun post => ?_⟩
        rw [← h3 post]
        simp [evalLoop, hne]
      · refine Or.inr ⟨e, he, fun post => ?_⟩
        rw [← h3 post]
        simp [evalLoop, hne]
    · cases hp : parseCsvLine fl line buf with
      | none => exact Or.inr ⟨none, Or.inl rfl, fun post => by simp [evalLoop, hne, hp]⟩
      | some r =>
        by_cases hok : r.ok = false
        · exact Or.inr ⟨some (Exit.malformed (total + 1)), Or.inr ⟨_, rfl⟩,
            fun post => by simp [evalLoop, hne, hp, hok]⟩
        · cases hq : predictClass fl w r.features with
          | none =>
            exact Or.inr ⟨none, Or.inl rfl, fun post => by simp [evalLoop, hne, hp, hok, hq]⟩
          | some predicted =>
            have hstep : ∀ post, evalLoop fl w ((line :: rest) ++ post) buf total correct
                = evalLoop fl w (rest ++ post) r.features (total + 1)
                    (if predicted = r.label then correct + 1 else correct) := by
              intro post
              have hok2 : r.ok = true := by simpa using hok
              simp only [List.cons_append, evalLoop, hne, if_false, hp, hok2,
                Bool.true_eq_false, hq]
              rfl
            have hle : (if predicted = r.label then correct + 1 else correct) ≤ total + 1 := by
              split_ifs <;> omega
            rcases ih r.features (total + 1) _ hle with ⟨b2, t2, c2, h1, h2, h3⟩ | ⟨e, he, h3⟩
            · exact Or.inl ⟨b2, t2, c2, h1, by omega, fun post => by rw [hstep, h3]⟩
            · exact Or.inr ⟨e, he, fun post => by rw [hstep, h3]⟩

theorem evalLoop_accuracy_le (fl : Rounding) (w : List ℚ) (lines : List (List Char))
    (buf : List ℚ) (c t : Nat)
    (h : evalLoop fl w lines buf 0 0 = some (Exit.accuracy c t)) : c ≤ t := by
  rcases evalLoop_after fl w lines buf 0 0 (le_refl _) with ⟨b2, t2, c2, h1, _, h3⟩ | ⟨e, he, h3⟩
  · have h4 := h3 []
    rw [List.append_nil, h] at h4
    by_cases h0 : t2 = 0
    · simp [evalLoop, h0] at h4
    · simp only [evalLoop, h0, if_false, Option.some.injEq, Exit.accuracy.injEq] at h4
      omega
  · have h4 := h3 []
    rw [List.append_nil, h] at h4
    rcases he with he | ⟨k, he⟩
    · rw [he] at h4
      cases h4
    · rw [he] at h4
      cases h4

theorem correctCount_le_sampleCount (fl : Rounding) (w : List ℚ) (lines : List (List Char)) :
    correctCount fl w lines ≤ sampleCount lines := by
  induction lines with
  | nil => simp [correctCount, sampleCount]
  | cons line rest ih =>
    by_cases hne : line = []
    · rw [hne, correctCount_cons_empty, sampleCount_cons_empty]
      exact ih
    · rw [correctCount_cons fl w line rest hne, sampleCount_cons line rest hne]
      split_ifs <;> omega

theorem ratio_unit_interval (c t : Nat) (hle : c ≤ t) (hpos : 0 < t) :
    (0 : ℚ) ≤ (c : ℚ) / (t : ℚ) ∧ (c : ℚ) / (t : ℚ) ≤ 1 := by
  have ht : (0 : ℚ) < (t : ℚ) := by exact_mod_cast hpos
  have hc : (c : ℚ) ≤ (t : ℚ) := by exact_mod_cast hle
  exact ⟨div_nonneg (by positivity) ht.le, (div_le_one ht).mpr hc⟩

theorem binary64_ratio (c t : Nat) (hle : c ≤ t) (hpos : 0 < t) (ht : t < 2 ^ 53) :
    (Exit.accuracy c t).reported binary64 = some (binary64 ((c : ℚ) / (t : ℚ))) ∧
    0 ≤ binary64 ((c : ℚ) / (t : ℚ)) ∧ binary64 ((c : ℚ) / (t : ℚ)) ≤ 1 := by
  have h := ratio_unit_interval c t hle hpos
  refine ⟨?_, binary64_nonneg _ h.1, binary64_le_one _ h.1 h.2⟩
  simp only [Exit.reported, binary64_natCast c (by omega), binary64_natCast t ht]

theorem sampleCount_singleton (line : List Char) (h : line ≠ []) : sampleCount [line] = 1 := by
  simp [sampleCount, h]

/-- C12: the tally satisfies `correct ≤ total` after every processed line
(whenever the loop goes on after a run of lines, it does so from counters with
`correct ≤ total`), so a successful run has `correct ≤ total`, `0 < total` and
reports a ratio in `[0, 1]`; for a test stream with exactly one valid row the
reported ratio is exactly 0 or exactly 1. -/
theorem tally_invariant (fl : Rounding) (tokens : List (Option ℚ)) (weights : List ℚ)
    (content : List Char) (hload : loadWeights (some tokens) = .ok weights) :
    (∀ (pre : List (List Char)) (buf : List ℚ) (total correct : Nat), correct ≤ total →
      (∃ buf2 total2 correct2, correct2 ≤ total2 ∧ total ≤ total2 ∧
        ∀ post, evalLoop fl weights (pre ++ post) buf total correct
          = evalLoop fl weights post buf2 total2 correct2) ∨
      (∃ e, (e = none ∨ ∃ k, e = some (Exit.malformed k)) ∧
        ∀ post, evalLoop fl weights (pre ++ post) buf total correct = e)) ∧
    (∀ correct total,
      main fl 3 (some tokens) (some content) = some (Exit.accuracy correct total) →
      correct ≤ total ∧ 0 < total ∧
      (Exit.accuracy correct total).reported exact
        = some ((correct : ℚ) / (total : ℚ)) ∧
      (0 : ℚ) ≤ (correct : ℚ) / (total : ℚ) ∧ (correct : ℚ) / (total : ℚ) ≤ 1 ∧
      (total < 2 ^ 53 → ∃ q, (Exit.accuracy correct total).reported binary64 = some q ∧
        0 ≤ q ∧ q ≤ 1)) ∧
    (sampleCount (getlines content) = 1 →
      (∀ line ∈ getlines content, line ≠ [] → accepts fl line = true) →
      ∃ correct, (correct = 0 ∨ correct = 1) ∧
        main fl 3 (some tokens) (some content) = some (Exit.accuracy correct 1) ∧
        (Exit.accuracy correct 1).reported exact = some (correct : ℚ) ∧
        (Exit.accuracy correct 1).reported binary64 = some (correct : ℚ)) := by
  have hw := loadWeights_length tokens weights hload
  refine ⟨evalLoop_after fl weights, ?_, ?_⟩
  · intro correct total h
    rw [main_eq_evalLoop fl tokens weights content hload] at h
    have hle := evalLoop_accuracy_le fl weights _ _ _ _ h
    have hpos := evalLoop_accuracy_pos fl weights _ _ _ _ _ _ h
    have hr := ratio_unit_interval correct total hle hpos
    refine ⟨hle, hpos, rfl, hr.1, hr.2, fun ht => ?_⟩
    have hb := binary64_ratio correct total hle hpos ht
    exact ⟨_, hb.1, hb.2.1, hb.2.2⟩
  · intro hone hacc
    have hle := correctCount_le_sampleCount fl weights (getlines content)
    rw [hone] at hle
    have hmain : main fl 3 (some tokens) (some content)
        = some (Exit.accuracy (correctCount fl weights (getlines content)) 1) := by
      rw [main_eq_evalLoop fl tokens weights content hload,
        evalLoop_accepted fl weights hw _ _ 0 0 freshBuffer_length hacc, hone]
      simp only [Nat.zero_add, Nat.succ_ne_zero, if_false]
    have hb1 : binary64 1 = 1 := by
      have := binary64_natCast 1 (by norm_num)
      simpa using this
    refine ⟨correctCount fl weights (getlines content), by omega, hmain, ?_, ?_⟩
    · simp [Exit.reported, exact]
    · have hc : correctCount fl weights (getlines content) = 0 ∨
          correctCount fl weights (getlines content) = 1 := by omega
      rcases hc with hc | hc
      · simp [Exit.reported, hc, binary64_zero]
      · simp [Exit.reported, hc, hb1]

theorem tally_invariant_witness :
    loadWeights (some (List.replicate 7850 (some (0 : ℚ)))) = .ok (List.replicate 7850 0) ∧
    sampleCount (getlines (joinCsv (['0'] :: List.replicate 784 ['0']))) = 1 ∧
    (∀ line ∈ getlines (joinCsv (['0'] :: List.replicate 784 ['0'])), line ≠ [] →
      accepts binary64 line = true) ∧
    ∃ correct, (correct = 0 ∨ correct = 1) ∧
      main binary64 3 (some (List.replicate 7850 (some 0)))
          (some (joinCsv (['0'] :: List.replicate 784 ['0'])))
        = some (Exit.accuracy correct 1) ∧
      (Exit.accuracy correct 1).reported exact = some (correct : ℚ) ∧
      (Exit.accuracy correct 1).reported binary64 = some (correct : ℚ) :=
  have hone : sampleCount (getlines (joinCsv (['0'] :: List.replicate 784 ['0']))) = 1 := by
    rw [getlines_zeroRow]
    exact sampleCount_singleton _ zeroRow_ne_nil
  have hacc : ∀ line ∈ getlines (joinCsv (['0'] :: List.replicate 784 ['0'])), line ≠ [] →
      accepts binary64 line = true := by
    intro line hl _
    rw [getlines_zeroRow, List.mem_singleton] at hl
    rw [hl]
    exact zeroRow_accepts binary64
  ⟨loadWeights_zero_model, hone, hacc,
    (tally_invariant binary64 _ _ (joinCsv (['0'] :: List.replicate 784 ['0']))
      loadWeights_zero_model).2.2 hone hacc⟩

/-! ### White space -/

theorem strtol_all_space (l : List Char) (h : ∀ c ∈ l, isSpace c = true) :
    strtol l = (0, 0) := by
  have htw : l.takeWhile isSpace = l := List.takeWhile_eq_self_iff.mpr h
  rw [strtol_of_scan l [] l.length (false, 0) (by rw [htw])
    (by rw [List.drop_length]; rfl) (by rw [List.drop_length]; rfl)]
  rfl

theorem accepts_all_space (fl : Rounding) (l : List Char) (h : ∀ c ∈ l, isSpace c = true) :
    accepts fl l = false := by
  simp [accepts, parseCsvLine, strtol_all_space l h]

/-- C14 (as amended): only empty lines are skipped by the driver: they are
not passed to the parser and do not count toward `total`.  A non-empty line
that consists only of white space is passed to the parser, which rejects it,
and the run ends with the malformed-row error at that sample. -/
theorem only_empty_lines_skipped (fl : Rounding) (tokens : List (Option ℚ))
    (weights : List ℚ) (content : List Char) (pre : List (List Char)) (blank : List Char)
    (post : List (List Char)) (hload : loadWeights (some tokens) = .ok weights)
    (hlines : getlines content = pre ++ blank :: post)
    (hpre : ∀ line ∈ pre, line ≠ [] → accepts fl line = true)
    (hne : blank ≠ []) (hblank : ∀ c ∈ blank, isSpace c = true) :
    (∀ rest buf total correct, evalLoop fl weights ([] :: rest) buf total correct
      = evalLoop fl weights rest buf total correct) ∧
    (∀ rest, sampleCount ([] :: rest) = sampleCount rest) ∧
    accepts fl blank = false ∧
    main fl 3 (some tokens) (some content) = some (Exit.malformed (sampleCount pre + 1)) := by
  have hw := loadWeights_length tokens weights hload
  have hrej := accepts_all_space fl blank hblank
  refine ⟨fun _ _ _ _ => by simp [evalLoop], sampleCount_cons_empty, hrej, ?_⟩
  rw [main_eq_evalLoop fl tokens weights content hload, hlines,
    evalLoop_rejected fl weights hw blank post hne hrej pre _ 0 0 freshBuffer_length hpre,
    Nat.zero_add]

theorem only_empty_lines_skipped_witness :
    loadWeights (some (List.replicate 7850 (some (0 : ℚ)))) = .ok (List.replicate 7850 0) ∧
    getlines (joinCsv (['0'] :: List.replicate 784 ['0']) ++ '\n' :: ['\r', '\n'])
      = [joinCsv (['0'] :: List.replicate 784 ['0'])] ++ ['\r'] :: [] ∧
    (['\r'] : List Char) ≠ [] ∧ (∀ c ∈ ['\r'], isSpace c = true) ∧
    main binary64 3 (some (List.replicate 7850 (some 0)))
        (some (joinCsv (['0'] :: List.replicate 784 ['0']) ++ '\n' :: ['\r', '\n']))
      = some (Exit.malformed (sampleCount [joinCsv (['0'] :: List.replicate 784 ['0'])] + 1)) :=
  have hlines : getlines (joinCsv (['0'] :: List.replicate 784 ['0']) ++ '\n' :: ['\r', '\n'])
      = [joinCsv (['0'] :: List.replicate 784 ['0'])] ++ ['\r'] :: [] := by
    have h2 : getlines ['\r', '\n'] = [['\r']] := by decide
    rw [getlines_line _ _ zeroRow_chars, h2]
    rfl
  ⟨loadWeights_zero_model, hlines, by decide, by decide,
    (only_empty_lines_skipped binary64 _ _ _ [joinCsv (['0'] :: List.replicate 784 ['0'])]
      ['\r'] [] loadWeights_zero_model hlines
      (fun line hl _ => by
        rw [List.mem_singleton] at hl
        rw [hl]
        exact zeroRow_accepts binary64)
      (by decide) (by decide)).2.2.2⟩

/-- C14 (as stated) fails: a line holding a single space, and the lone
carriage return of an empty line of a CRLF file, are passed to the parser and
end the run with the malformed-row error for sample 1. -/
theorem blank_line_counterexample :
    main binary64 3 (some (List.replicate 7850 (some 0))) (some [' ', '\n'])
      = some (Exit.malformed 1) ∧
    main binary64 3 (some (List.replicate 7850 (some 0))) (some ['\r', '\n'])
      = some (Exit.malformed 1) ∧
    (Exit.malformed 1).status = 1 := by
  have h1 : getlines [' ', '\n'] = [] ++ [' '] :: [] := by decide
  have h2 : getlines ['\r', '\n'] = [] ++ ['\r'] :: [] := by decide
  have hw : (List.replicate 7850 (0 : ℚ)).length = 7850 := List.length_replicate _ _
  refine ⟨?_, ?_, rfl⟩
  · rw [main_eq_evalLoop binary64 _ _ _ loadWeights_zero_model, h1,
      evalLoop_rejected binary64 _ hw [' '] [] (by decide)
        (accepts_all_space binary64 _ (by decide)) [] _ 0 0 freshBuffer_length
        (fun _ hl => absurd hl (List.not_mem_nil _))]
    rfl
  · rw [main_eq_evalLoop binary64 _ _ _ loadWeights_zero_model, h2,
      evalLoop_rejected binary64 _ hw ['\r'] [] (by decide)
        (accepts_all_space binary64 _ (by decide)) [] _ 0 0 freshBuffer_length
        (fun _ hl => absurd hl (List.not_mem_nil _))]
    rfl

theorem scan_result_shift (n a b p : Nat) (v : Int) :
    (if n = 0 then ((0 : Int), 0) else (v, p + a + b + n))
      = if (if n = 0 then ((0 : Int), 0) else (v, a + b + n)).2 = 0 then (0, 0)
        else ((if n = 0 then ((0 : Int), 0) else (v, a + b + n)).1,
          p + (if n = 0 then ((0 : Int), 0) else (v, a + b + n)).2) := by
  by_cases h : n = 0
  · simp [h]
  · simp only [h, if_false]
    rw [if_neg (by omega)]
    simp only [Prod.mk.injEq, true_and]
    omega

/-- White space before a number does not change what `strtol` scans; it only
adds to the characters consumed. -/
theorem strtol_skip_space (pad s : List Char) (hpad : ∀ c ∈ pad, isSpace c = true) :
    strtol (pad ++ s) = if (strtol s).2 = 0 then (0, 0)
      else ((strtol s).1, pad.length + (strtol s).2) := by
  have htw : (pad ++ s).takeWhile isSpace = pad ++ s.takeWhile isSpace := by
    induction pad with
    | nil => rfl
    | cons c cs ih =>
      have hc : isSpace c = true := hpad c (by simp)
      simp only [List.cons_append, List.takeWhile_cons, hc, if_true]
      rw [ih (fun x hx => hpad x (by simp [hx]))]
  have hdrop : (pad ++ s).drop (pad.length + (s.takeWhile isSpace).length)
      = s.drop (s.takeWhile isSpace).length := by
    rw [List.drop_append]
  have h1 := strtol_of_scan s _ _ _ rfl rfl rfl
  have h2 := strtol_of_scan (pad ++ s)
    (((s.drop (s.takeWhile isSpace).length).drop
      (scanSign (s.drop (s.takeWhile isSpace).length)).2).takeWhile Char.isDigit)
    (pad.length + (s.takeWhile isSpace).length)
    (scanSign (s.drop (s.takeWhile isSpace).length))
    (by rw [htw, List.length_append]) (by rw [hdrop]) (by rw [hdrop])
  rw [h2, h1]
  exact scan_result_shift _ _ _ _ _

theorem isSpace_not_isDigit (c : Char) (h : isSpace c = true) : c.isDigit = false := by
  by_contra hd
  have := not_isSpace_of_isDigit c (by simpa using hd)
  rw [h] at this
  cases this

/-- A padded token followed by something that does not start with a digit is
scanned whole, white space included. -/
theorem strtol_padded (c rest : List Char) (hc : isPaddedToken c = true)
    (hrest : (peek rest).isDigit = false) :
    strtol (c ++ rest) = (clampLong (paddedValue c), c.length) ∧ c.length ≠ 0 := by
  have hsplit : c.takeWhile isSpace ++ c.dropWhile isSpace = c := List.takeWhile_append_dropWhile _ _
  have hpad : ∀ x ∈ c.takeWhile isSpace, isSpace x = true := fun x hx => List.mem_takeWhile_imp hx
  have htok := strtol_token (c.dropWhile isSpace) rest hc hrest
  have hpos := isIntToken_length (c.dropWhile isSpace) hc
  have hlen : c.length = (c.takeWhile isSpace).length + (c.dropWhile isSpace).length := by
    conv_lhs => rw [← hsplit]
    rw [List.length_append]
  constructor
  · conv_lhs => rw [← hsplit, List.append_assoc]
    rw [strtol_skip_space _ _ hpad, htok]
    simp only [hpos, if_false, paddedValue, hlen]
  · omega

/-- The pixel loop on padded tokens: the white space before each token is
skipped and the token is stored as if it were not there. -/
theorem pixelLoop_padded (fl : Rounding) (s : List Char)
    (hs : (peek s).isDigit = false) :
    ∀ (n i : Nat) (cs : List (List Char)) (buf : List ℚ), cs.length = n → 1 ≤ n →
      i + n = 784 → buf.length = 784 → (∀ c ∈ cs, isPaddedToken c = true) →
      pixelLoop fl n i (joinCsv cs ++ s) buf
        = some (true, buf.take i ++ cs.map fun c => normalize fl (clampLong (paddedValue c))) := by
  intro n
  induction n with
  | zero => intro i cs buf _ h1; omega
  | succ n ih =>
    intro i cs buf hlen _ hin hbuf htok
    match cs, hlen, htok with
    | [c], hlen, htok =>
      have hn : n = 0 := by simpa using hlen
      subst hn
      obtain ⟨hscan, hpos⟩ := strtol_padded c s (htok c (by simp)) hs
      simp only [joinCsv, pixelLoop, hscan, hpos, if_false, hbuf, kNumPixels]
      rw [if_pos (by omega), if_neg (by omega)]
      simp [set_last buf i _ (by omega), normalize]
    | c :: c2 :: cs2, hlen, htok =>
      have hn : (c2 :: cs2).length = n := by simpa using hlen
      obtain ⟨hscan, hpos⟩ := strtol_padded c (',' :: (joinCsv (c2 :: cs2) ++ s))
        (htok c (by simp)) (peek_comma_isDigit _)
      have hjoin : joinCsv (c :: c2 :: cs2) ++ s = c ++ ',' :: (joinCsv (c2 :: cs2) ++ s) := by
        simp [joinCsv]
      have hn1 : 1 ≤ n := by rw [← hn]; simp
      simp only [hjoin, pixelLoop, hscan, hpos, if_false, hbuf, kNumPixels]
      rw [if_pos (by omega), if_pos (by omega)]
      simp only [List.drop_left, peek, List.headD_cons, ne_eq, not_true_eq_false, if_false,
        List.drop_succ_cons, List.drop_zero]
      rw [ih (i + 1) (c2 :: cs2) _ hn hn1 (by omega) (by simp [hbuf])
        (fun x hx => htok x (by simp [List.mem_cons] at hx ⊢; tauto)),
        take_succ_set buf i _ (by omega)]
      simp [normalize]

/-- A row of 785 padded tokens is accepted, with the label and the feature
values of the tokens without their white space. -/
theorem parseCsvLine_padded (fl : Rounding) (cL : List Char) (cs : List (List Char))
    (s : List Char) (buf : List ℚ) (hL : isPaddedToken cL = true)
    (hcs : ∀ c ∈ cs, isPaddedToken c = true) (hlen : cs.length = 784)
    (hbuf : buf.length = 784) (hs : (peek s).isDigit = false) :
    parseCsvLine fl (joinCsv (cL :: cs) ++ s) buf
      = some ⟨true, toInt32 (clampLong (paddedValue cL)),
          cs.map fun c => normalize fl (clampLong (paddedValue c))⟩ := by
  match cs, hlen, hcs with
  | c :: cs2, hlen, hcs =>
    have hjoin : joinCsv (cL :: c :: cs2) ++ s = cL ++ ',' :: (joinCsv (c :: cs2) ++ s) := by
      simp [joinCsv]
    obtain ⟨hscan, hpos⟩ := strtol_padded cL (',' :: (joinCsv (c :: cs2) ++ s)) hL
      (peek_comma_isDigit _)
    have hloop := pixelLoop_padded fl s hs 784 0 (c :: cs2) buf hlen (by omega) (by omega)
      hbuf hcs
    simp only [hjoin, parseCsvLine, hscan, hpos, if_false, List.drop_left, peek,
      List.headD_cons, if_true, List.drop_succ_cons, List.drop_zero, kNumPixels]
    simp only [peek] at hloop
    rw [hloop]
    simp

/-- White space right after the label is not skipped: the line is rejected. -/
theorem parseCsvLine_space_after_label (fl : Rounding) (tL rest : List Char) (c : Char)
    (buf : List ℚ) (hL : isIntToken tL = true) (hc : isSpace c = true) :
    parseCsvLine fl (tL ++ c :: rest) buf
      = some ⟨false, toInt32 (clampLong (tokenValue tL)), buf⟩ := by
  have hd : (peek (c :: rest)).isDigit = false := isSpace_not_isDigit c hc
  have hscan := strtol_token tL (c :: rest) hL hd
  have hpos := isIntToken_length tL hL
  have hcomma : c ≠ ',' := by
    intro h
    rw [h] at hc
    revert hc
    decide
  have hnul : c ≠ Char.ofNat 0 := by
    intro h
    rw [h] at hc
    revert hc
    decide
  simp [parseCsvLine, hscan, hpos, peek, hcomma, hnul]

theorem padded_cons_replicate (c t : List Char) (n : Nat) (hc : isPaddedToken c = true)
    (ht : isPaddedToken t = true) : ∀ x ∈ c :: List.replicate n t, isPaddedToken x = true := by
  intro x hx
  rcases List.mem_cons.mp hx with h | h
  · rw [h]; exact hc
  · rw [List.eq_of_mem_replicate h]; exact ht

/-- C13 (as amended): white space standing before the label or before a pixel
token is skipped by the integer scan: a row of a label and 784 pixel tokens,
each preceded by any amount of white space, is accepted with the same label
and the same feature values as the row without that white space.  White space
right after the label is not skipped, such a line is rejected. -/
theorem leading_space_skipped (fl : Rounding) (cL : List Char) (cs : List (List Char))
    (buf : List ℚ) (hL : isPaddedToken cL = true) (hcs : ∀ c ∈ cs, isPaddedToken c = true)
    (hlen : cs.length = 784) (hbuf : buf.length = 784) :
    (∃ r, parseCsvLine fl (joinCsv (cL :: cs)) buf = some r ∧ r.ok = true ∧
      r.label = toInt32 (clampLong (paddedValue cL)) ∧
      parseCsvLine fl (joinCsv (cL.dropWhile isSpace :: cs.map (List.dropWhile isSpace))) buf
        = some r) ∧
    (∀ (tL rest : List Char) (c : Char), isIntToken tL = true → isSpace c = true →
      ∃ r, parseCsvLine fl (tL ++ c :: rest) buf = some r ∧ r.ok = false) := by
  have h1 := parseCsvLine_padded fl cL cs [] buf hL hcs hlen hbuf peek_nil_isDigit
  have h2 := parseCsvLine_tokens fl (cL.dropWhile isSpace) (cs.map (List.dropWhile isSpace)) []
    buf hL
    (by
      intro t ht
      obtain ⟨c, hc, rfl⟩ := List.mem_map.mp ht
      exact hcs c hc)
    (by rw [List.length_map]; exact hlen) hbuf peek_nil_isDigit
  rw [List.append_nil] at h1 h2
  refine ⟨⟨_, h1, rfl, rfl, ?_⟩, fun tL rest c hT hc =>
    ⟨_, parseCsvLine_space_after_label fl tL rest c buf hT hc, rfl⟩⟩
  rw [h2, List.map_map]
  rfl

theorem leading_space_skipped_witness :
    isPaddedToken [' ', '7'] = true ∧
    (∀ c ∈ ['\t', '0'] :: List.replicate 783 ['0'], isPaddedToken c = true) ∧
    (['\t', '0'] :: List.replicate 783 ['0']).length = 784 ∧
    (List.replicate 784 (0 : ℚ)).length = 784 ∧
    ∃ r, parseCsvLine binary64 (joinCsv ([' ', '7'] :: ['\t', '0'] :: List.replicate 783 ['0']))
        (List.replicate 784 0) = some r ∧ r.ok = true ∧
      r.label = toInt32 (clampLong (paddedValue [' ', '7'])) ∧
      parseCsvLine binary64
        (joinCsv (([' ', '7'] : List Char).dropWhile isSpace ::
          (['\t', '0'] :: List.replicate 783 ['0']).map (List.dropWhile isSpace)))
        (List.replicate 784 0) = some r :=
  ⟨by decide, padded_cons_replicate _ _ _ (by decide) (by decide),
    by rw [List.length_cons, List.length_replicate], List.length_replicate _ _,
    (leading_space_skipped binary64 [' ', '7'] (['\t', '0'] :: List.replicate 783 ['0'])
      (List.replicate 784 0) (by decide)
      (padded_cons_replicate _ _ _ (by decide) (by decide))
      (by rw [List.length_cons, List.length_replicate]) (List.length_replicate _ _)).1⟩

/-- C13 (as stated) fails: the row with a space after the first comma, and
the row with a space before the label, are accepted, with label 0. -/
theorem space_after_comma_counterexample :
    (∃ r, parseCsvLine binary64 (joinCsv (['0'] :: [' ', '0'] :: List.replicate 783 ['0']))
        (List.replicate 784 0) = some r ∧ r.ok = true ∧ r.label = 0) ∧
    (∃ r, parseCsvLine binary64 (joinCsv ([' ', '0'] :: List.replicate 784 ['0']))
        (List.replicate 784 0) = some r ∧ r.ok = true ∧ r.label = 0) := by
  have h1 := parseCsvLine_padded binary64 ['0'] ([' ', '0'] :: List.replicate 783 ['0']) []
    (List.replicate 784 0) (by decide) (padded_cons_replicate _ _ _ (by decide) (by decide))
    (by rw [List.length_cons, List.length_replicate]) (List.length_replicate _ _)
    peek_nil_isDigit
  have h2 := parseCsvLine_padded binary64 [' ', '0'] (List.replicate 784 ['0']) []
    (List.replicate 784 0) (by decide)
    (fun c hc => by rw [List.eq_of_mem_replicate hc]; decide)
    (List.length_replicate _ _) (List.length_replicate _ _) peek_nil_isDigit
  rw [List.append_nil] at h1 h2
  exact ⟨⟨_, h1, rfl, by decide⟩, ⟨_, h2, rfl, by decide⟩⟩

/-! ### predictClass with rounded arithmetic -/

theorem scoreLoop_eq_foldl (fl : Rounding) (w f : List ℚ) (row : Nat) :
    ∀ (n i : Nat) (s : ℚ), row + i + n < w.length → i + n ≤ f.length →
      scoreLoop fl w f row n i s
        = some ((List.range' i n).foldl
            (fun s j => fl (s + fl (w.getD (row + 1 + j) 0 * f.getD j 0))) s) := by
  intro n
  induction n with
  | zero => intro i s _ _; rfl
  | succ n ih =>
    intro i s hw hf
    have h1 : w[row + (i + 1)]? = some (w.getD (row + (i + 1)) 0) :=
      getElem?_eq_some_getD w _ (by omega)
    have h2 : f[i]? = some (f.getD i 0) := getElem?_eq_some_getD f _ (by omega)
    have e3 : row + (i + 1) = row + 1 + i := by omega
    simp only [scoreLoop, h1, h2]
    rw [ih (i + 1) _ (by omega) (by omega), List.range'_succ, List.foldl_cons, e3]

/-- With buffers of the right size the inner loop computes `computedScore`. -/
theorem row_computedScore (fl : Rounding) (w f : List ℚ) (hw : w.length = 7850)
    (hf : f.length = 784) (c : Nat) (hc : c < 10) :
    ∃ bias, w[785 * c]? = some bias ∧
      scoreLoop fl w f (785 * c) kNumPixels 0 bias = some (computedScore fl w f c) := by
  refine ⟨w.getD (785 * c) 0, getElem?_eq_some_getD w _ (by omega), ?_⟩
  have h := scoreLoop_eq_foldl fl w f (785 * c) 784 0 (w.getD (785 * c) 0) (by omega)
    (by omega)
  rw [← List.range_eq_range'] at h
  exact h

theorem foldl_add_eq_sum (a : Nat → ℚ) (n : Nat) (s : ℚ) :
    (List.range n).foldl (fun t i => exact (t + exact (a i))) s
      = s + ∑ i in Finset.range n, a i := by
  induction n with
  | zero => simp
  | succ n ih =>
    rw [List.range_succ, List.foldl_append, ih, Finset.sum_range_succ]
    simp only [List.foldl_cons, List.foldl_nil, exact]
    ring

/-- In exact arithmetic the computed score is the bias plus the sum of the
pixel contributions. -/
theorem computedScore_exact (w f : List ℚ) (c : Nat) :
    computedScore exact w f c = score w f c :=
  foldl_add_eq_sum (fun i => w.getD (785 * c + 1 + i) 0 * f.getD i 0) 784 (w.getD (785 * c) 0)

theorem predictClass_argmax_computed (fl : Rounding) (w f : List ℚ) (hw : w.length = 7850)
    (hf : f.length = 784) :
    ∃ c : Nat, predictClass fl w f = some (c : Int) ∧ c < 10 ∧
      (∀ d, d < 10 → computedScore fl w f d ≤ computedScore fl w f c) ∧
      (∀ d, d < c → computedScore fl w f d < computedScore fl w f c) := by
  have h := classLoop_argmax fl w f (computedScore fl w f) (row_computedScore fl w f hw hf)
    10 0 none 0 (by omega) (Or.inl ⟨rfl, rfl, rfl⟩)
  simpa [predictClass, kNumClasses] using h

theorem getElem?_map_range (g : Nat → ℚ) (n k : Nat) (h : k < n) :
    ((List.range n).map g)[k]? = some (g k) := by
  rw [List.getElem?_map, List.getElem?_range h]
  rfl

theorem getD_map_range (g : Nat → ℚ) (n k : Nat) :
    ((List.range n).map g).getD k 0 = if k < n then g k else 0 := by
  by_cases h : k < n
  · simp [List.getD, getElem?_map_range g n k h, h]
  · have hlen : ((List.range n).map g).length ≤ k := by
      rw [List.length_map, List.length_range]
      omega
    simp [List.getD, List.getElem?_eq_none hlen, h]

theorem roundingModel_length : roundingModel.length = 7850 := by
  rw [roundingModel, List.length_map, List.length_range]

theorem roundingFeatures_length : roundingFeatures.length = 784 := by
  rw [roundingFeatures, List.length_map, List.length_range]

theorem roundingModel_get (k : Nat) (h : k < 7850) :
    roundingModel[k]? = some (if k = 0 ∨ k = 785 then 10000000000000000
      else if k = 786 then 1 else 0) :=
  getElem?_map_range _ 7850 k h

theorem roundingFeatures_get (i : Nat) (h : i < 784) :
    roundingFeatures[i]? = some (if i = 0 then 1 else 0) :=
  getElem?_map_range _ 784 i h

theorem scoreLoop_step (fl : Rounding) (w f : List ℚ) (row n i : Nat) (s a x : ℚ)
    (hw : w[row + (i + 1)]? = some a) (hf : f[i]? = some x) :
    scoreLoop fl w f row (n + 1) i s = scoreLoop fl w f row n (i + 1) (fl (s + fl (a * x))) := by
  simp only [scoreLoop, hw, hf]

/-- Zero weights leave a score that is a double as it is. -/
theorem scoreLoop_zero_weights (fl : Rounding) (h0 : fl 0 = 0) (w f : List ℚ) (row : Nat)
    (s : ℚ) (hs : fl s = s) :
    ∀ (n i : Nat), (∀ j, j < n → w[row + (i + 1 + j)]? = some 0) → i + n ≤ f.length →
      scoreLoop fl w f row n i s = some s := by
  intro n
  induction n with
  | zero => intro i _ _; rfl
  | succ n ih =>
    intro i hw hf
    have h1 : w[row + (i + 1)]? = some 0 := by
      have := hw 0 (by omega)
      simpa using this
    have h2 : f[i]? = some (f.getD i 0) := getElem?_eq_some_getD f _ (by omega)
    rw [scoreLoop_step fl w f row n i s 0 _ h1 h2]
    simp only [zero_mul, h0, add_zero, hs]
    apply ih (i + 1) _ (by omega)
    intro j hj
    have := hw (j + 1) (by omega)
    rw [show i + 1 + (j + 1) = i + 1 + 1 + j by omega] at this
    exact this

theorem binary64_one : binary64 1 = 1 := by
  have h := binary64_natCast 1 (by norm_num)
  simpa using h

/-- The number `10 ^ 16` is a double. -/
theorem binary64_1e16 : binary64 10000000000000000 = 10000000000000000 := by
  have h := binary64_eval 10000000000000000 53 5000000000000000
    (by norm_num [abs_of_pos]) (by norm_num [abs_of_pos])
    (roundHalfEven_of_lt _ _ (by norm_num) (by norm_num))
  rw [h]
  norm_num

/-- The sum `10 ^ 16 + 1` is a tie between two doubles and rounds to the even
one, `10 ^ 16`. -/
theorem binary64_1e16_add_one : binary64 (10000000000000000 + 1) = 10000000000000000 := by
  have h := binary64_eval (10000000000000000 + 1) 53 5000000000000000
    (by norm_num [abs_of_pos]) (by norm_num [abs_of_pos])
    (roundHalfEven_tie_even _ _ (by norm_num) (by norm_num))
  rw [h]
  norm_num

theorem roundingModel_zero (k : Nat) (h : k < 7850) (h0 : k ≠ 0) (h1 : k ≠ 785)
    (h2 : k ≠ 786) : roundingModel[k]? = some 0 := by
  rw [roundingModel_get k h, if_neg (by omega), if_neg h2]

/-- The scores the code computes on the rounding model: `10 ^ 16` for classes
0 and 1, and 0 for the other classes. -/
theorem rounding_scores (c : Nat) (hc : c < 10) :
    ∃ bias, roundingModel[785 * c]? = some bias ∧
      scoreLoop binary64 roundingModel roundingFeatures (785 * c) kNumPixels 0 bias
        = some ((fun d => if d ≤ 1 then (10000000000000000 : ℚ) else 0) c) := by
  have hk : kNumPixels = 783 + 1 := rfl
  have hflen := roundingFeatures_length
  by_cases h0 : c = 0
  · subst h0
    refine ⟨10000000000000000, by rw [roundingModel_get _ (by omega), if_pos (by omega)], ?_⟩
    rw [scoreLoop_zero_weights binary64 binary64_zero _ _ _ _ binary64_1e16 kNumPixels 0
      (fun j hj => roundingModel_zero _ (by rw [hk] at hj; omega) (by omega) (by omega)
        (by omega))
      (by rw [hk, hflen])]
    rfl
  · by_cases h1 : c = 1
    · subst h1
      refine ⟨10000000000000000, by rw [roundingModel_get _ (by omega), if_pos (by omega)], ?_⟩
      rw [hk, scoreLoop_step binary64 _ _ _ 783 0 _ 1 1
        (by rw [roundingModel_get _ (by omega), if_neg (by omega), if_pos (by omega)])
        (by rw [roundingFeatures_get _ (by omega), if_pos rfl])]
      simp only [one_mul, binary64_one, binary64_1e16_add_one]
      rw [scoreLoop_zero_weights binary64 binary64_zero _ _ _ _ binary64_1e16 783 (0 + 1)
        (fun j hj => roundingModel_zero _ (by omega) (by omega) (by omega) (by omega))
        (by rw [hflen])]
      rfl
    · refine ⟨0, roundingModel_zero _ (by omega) (by omega) (by omega) (by omega), ?_⟩
      rw [scoreLoop_zero_weights binary64 binary64_zero _ _ _ _ binary64_zero kNumPixels 0
        (fun j hj => roundingModel_zero _ (by rw [hk] at hj; omega) (by omega) (by omega)
          (by omega))
        (by rw [hk, hflen])]
      have hc2 : ¬ c ≤ 1 := by omega
      simp only [hc2, if_false]

theorem predictClass_roundingModel :
    predictClass binary64 roundingModel roundingFeatures = some 0 := by
  obtain ⟨c, hc, _, hmax, hfirst⟩ := classLoop_argmax binary64 roundingModel roundingFeatures
    _ rounding_scores 10 0 none 0 (by omega) (Or.inl ⟨rfl, rfl, rfl⟩)
  have hc0 : c = 0 := by
    by_contra hne
    have h := hfirst 0 (Nat.pos_of_ne_zero hne)
    simp only [Nat.zero_le, if_true] at h
    split_ifs at h
    · exact absurd h (lt_irrefl _)
    · norm_num at h
  subst hc0
  simpa [predictClass, kNumClasses] using hc

theorem roundingFeatures_getD (i : Nat) :
    roundingFeatures.getD i 0 = if i = 0 then 1 else 0 := by
  rw [roundingFeatures, getD_map_range]
  by_cases h : i = 0
  · subst h
    simp
  · simp [h]

/-- The exact score of a class on the rounding model: only pixel 0 counts. -/
theorem score_roundingModel (c : Nat) :
    score roundingModel roundingFeatures c
      = roundingModel.getD (785 * c) 0 + roundingModel.getD (785 * c + 1) 0 := by
  have hsum : ∑ i in Finset.range 784,
      roundingModel.getD (785 * c + 1 + i) 0 * roundingFeatures.getD i 0
      = roundingModel.getD (785 * c + 1 + 0) 0 * roundingFeatures.getD 0 0 := by
    apply Finset.sum_eq_single 0
    · intro i _ hi
      rw [roundingFeatures_getD, if_neg hi, mul_zero]
    · intro h
      exact absurd (Finset.mem_range.mpr (by omega)) h
  rw [score, hsum, roundingFeatures_getD, if_pos rfl, mul_one, Nat.add_zero]

theorem score_roundingModel_values :
    score roundingModel roundingFeatures 0 = 10000000000000000 ∧
    score roundingModel roundingFeatures 1 = 10000000000000000 + 1 := by
  constructor
  · rw [score_roundingModel, roundingModel, getD_map_range, getD_map_range]
    norm_num
  · rw [score_roundingModel, roundingModel, getD_map_range, getD_map_range]
    norm_num

/-- C1 (as amended): for a weight sequence of length 7850 and a feature
vector of length 784, `predictClass` returns the smallest class index below
10 whose computed score is maximal, the computed score being what the code
accumulates: the bias first, then the pixel contributions in increasing index
order, each product and each sum rounded.  In exact arithmetic the computed
score is the bias plus the sum of the pixel contributions. -/
theorem predictClass_smallest_computed_argmax (fl : Rounding) (w f : List ℚ)
    (hw : w.length = 7850) (hf : f.length = 784) :
    (∃ c : Nat, predictClass fl w f = some (c : Int) ∧ c < 10 ∧
      (∀ d, d < 10 → computedScore fl w f d ≤ computedScore fl w f c) ∧
      (∀ d, d < c → computedScore fl w f d < computedScore fl w f c)) ∧
    (∀ c, computedScore fl w f c
      = (List.range 784).foldl
          (fun s i => fl (s + fl (w.getD (785 * c + 1 + i) 0 * f.getD i 0)))
          (w.getD (785 * c) 0)) ∧
    (∀ c, computedScore exact w f c
      = w.getD (785 * c) 0
        + ∑ i in Finset.range 784, w.getD (785 * c + 1 + i) 0 * f.getD i 0) :=
  ⟨predictClass_argmax_computed fl w f hw hf, fun _ => rfl, fun c => computedScore_exact w f c⟩

theorem predictClass_smallest_computed_argmax_witness :
    roundingModel.length = 7850 ∧ roundingFeatures.length = 784 ∧
    ∃ c : Nat, predictClass binary64 roundingModel roundingFeatures = some (c : Int) ∧ c < 10 ∧
      (∀ d, d < 10 → computedScore binary64 roundingModel roundingFeatures d
        ≤ computedScore binary64 roundingModel roundingFeatures c) ∧
      (∀ d, d < c → computedScore binary64 roundingModel roundingFeatures d
        < computedScore binary64 roundingModel roundingFeatures c) :=
  ⟨roundingModel_length, roundingFeatures_length,
    (predictClass_smallest_computed_argmax binary64 roundingModel roundingFeatures
      roundingModel_length roundingFeatures_length).1⟩

/-- C1 (as stated) fails in binary64 arithmetic: on the rounding model the
exact score of class 1, `10 ^ 16 + 1`, is larger than that of class 0,
`10 ^ 16`, but the sum `10 ^ 16 + 1` rounds to `10 ^ 16`, the strict comparison
keeps class 0, and `predictClass` returns 0. -/
theorem predictClass_rounding_counterexample :
    roundingModel.length = 7850 ∧ roundingFeatures.length = 784 ∧
    predictClass binary64 roundingModel roundingFeatures = some 0 ∧
    score roundingModel roundingFeatures 0 = 10000000000000000 ∧
    score roundingModel roundingFeatures 1 = 10000000000000000 + 1 ∧
    score roundingModel roundingFeatures 0 < score roundingModel roundingFeatures 1 ∧
    predictClass exact roundingModel roundingFeatures ≠ some 0 := by
  have hs := score_roundingModel_values
  have hlt : score roundingModel roundingFeatures 0 < score roundingModel roundingFeatures 1 := by
    rw [hs.1, hs.2]
    norm_num
  refine ⟨roundingModel_length, roundingFeatures_length, predictClass_roundingModel, hs.1,
    hs.2, hlt, ?_⟩
  obtain ⟨c, hc, _, hmax, _⟩ := predictClass_argmax_computed exact roundingModel
    roundingFeatures roundingModel_length roundingFeatures_length
  rw [hc]
  intro h
  have hc0 : c = 0 := by
    have := Option.some.inj h
    exact_mod_cast this
  subst hc0
  have h1 := hmax 1 (by omega)
  rw [computedScore_exact, computedScore_exact] at h1
  exact absurd hlt (not_lt.mpr h1)

end Homework13
